import Mathlib

/-!
Verification of the file-explorer backend (Python / FastAPI, POSIX
filesystem semantics), shallowly embedded from
`src/assignment/file-explorer/backend/app`.

Paths are modelled as `List Char`.  The `os.path` library functions the
source calls (`os.path.join`, `os.path.abspath` / `posixpath.normpath`,
`str.split('/')`) are embedded following CPython's `posixpath`
implementation, including the POSIX two-leading-slash special case of
`normpath`; string primitives (`str.replace`, `str.strip`) follow
CPython semantics (left-to-right non-overlapping replacement).
Symbolic links are not modelled: `os.path.abspath` is purely textual in
CPython as well, so the embedding is exact at the level of the strings
the program manipulates.
-/

namespace FileExplorer

abbrev LC := List Char

/-- CPython `user_path.replace('..', '')` : remove the non-overlapping
occurrences of `..`, scanning left to right
(`app/utils/security.py`, `validate_path`). -/
def stripDotDot : LC → LC
  | [] => []
  | [c] => [c]
  | c :: d :: rest =>
    if c = '.' ∧ d = '.' then stripDotDot rest
    else c :: stripDotDot (d :: rest)

/-- CPython `….replace('//', '/')` : replace the non-overlapping
occurrences of `//` by `/`, scanning left to right
(`app/utils/security.py`, `validate_path`). -/
def collapseSlash : LC → LC
  | [] => []
  | [c] => [c]
  | c :: d :: rest =>
    if c = '/' ∧ d = '/' then '/' :: collapseSlash rest
    else c :: collapseSlash (d :: rest)

/-- CPython `….strip('/')` : drop leading and trailing `/` characters
(`app/utils/security.py`, `validate_path`). -/
def stripSlashes (l : LC) : LC :=
  ((l.dropWhile (fun c => c = '/')).reverse.dropWhile (fun c => c = '/')).reverse

/-- Whether the string contains two adjacent dots (the substring `..`). -/
def hasDD : LC → Bool
  | [] => false
  | c :: rest => (decide (c = '.') && decide (rest.head? = some '.')) || hasDD rest

/-- Boolean `a.startswith(b)` on char lists. -/
def startsWithL : LC → LC → Bool
  | _, [] => true
  | [], _ :: _ => false
  | a :: as, b :: bs => decide (a = b) && startsWithL as bs

/-- Boolean substring containment (`needle in hay` for Python strings). -/
def containsL (hay needle : LC) : Bool :=
  startsWithL hay needle ||
    match hay with
    | [] => false
    | _ :: t => containsL t needle

/-- CPython `p.split('/')` (keeps empty parts). -/
def splitSlash : LC → List LC
  | [] => [[]]
  | c :: rest =>
    if c = '/' then [] :: splitSlash rest
    else
      match splitSlash rest with
      | [] => [[c]]
      | s :: ss => (c :: s) :: ss

/-- A path component that `posixpath.normpath` keeps (neither empty
nor `.`). -/
def goodSeg (c : LC) : Bool := decide (c ≠ [] ∧ c ≠ ['.'])

/-- One step of `posixpath.normpath`'s component loop, processing one
component against the stack of already-accepted components (held in
reverse).  `abs` records whether the whole path had leading slashes. -/
def normStep (abs : Bool) (acc : List LC) (c : LC) : List LC :=
  if c = [] ∨ c = ['.'] then acc
  else if c = ['.', '.'] then
    match acc with
    | [] => if abs then [] else [c]
    | a :: acc' => if a = ['.', '.'] then c :: acc else acc'
  else c :: acc

/-- The accepted components of `posixpath.normpath`, in order. -/
def normComps (segs : List LC) (abs : Bool) : List LC :=
  (segs.foldl (normStep abs) []).reverse

/-- CPython `'/'.join(comps)`. -/
def intercSlash : List LC → LC
  | [] => []
  | [s] => s
  | s :: rest => s ++ '/' :: intercSlash rest

/-- The leading-slash block `posixpath.normpath` preserves: `//` when
the path starts with exactly two slashes, `/` when it starts with one
or at least three, nothing when relative. -/
def slashPre (p : LC) : LC :=
  if p.head? = some '/' then
    if p.tail.head? = some '/' then
      if p.tail.tail.head? = some '/' then ['/'] else ['/', '/']
    else ['/']
  else []

/-- `posixpath.normpath`. -/
def normpath (p : LC) : LC :=
  let pre := slashPre p
  let r := pre ++ intercSlash (normComps (splitSlash p) (decide (p.head? = some '/')))
  if r = [] then ['.'] else r

/-- `posixpath.join` for two operands (the source only ever joins two
at a time, or folds over several). -/
def joinOne (a b : LC) : LC :=
  if b.head? = some '/' then b
  else if a = [] ∨ a.getLast? = some '/' then a ++ b
  else a ++ '/' :: b

/-- `posixpath.abspath`, with the process working directory passed
explicitly (`os.getcwd()` always yields an absolute path). -/
def abspath (cwd p : LC) : LC :=
  if p.head? = some '/' then normpath p else normpath (joinOne cwd p)

/-- `validate_path` (`app/utils/security.py`); the `HTTPException(403)`
branch is the `.error` value. -/
def validate_path (cwd base_path user_path : LC) : Except Unit LC :=
  if user_path = [] then .ok base_path
  else
    let sanitized := stripSlashes (collapseSlash (stripDotDot user_path))
    let full_path := joinOne base_path sanitized
    let resolved_path := abspath cwd full_path
    let base_abs_path := abspath cwd base_path
    if startsWithL resolved_path base_abs_path then .ok resolved_path
    else .error ()

/-- `get_user_directory` (`app/utils/security.py`): the returned path;
the `os.makedirs(..., exist_ok=True)` side effect does not alter it. -/
def get_user_directory (cwd user_id : LC) : LC :=
  joinOne (joinOne cwd "uploads".data) user_id

/-- `r` extended below a separator boundary by `t` (insert a `/` unless
`r` already ends with one). -/
def appendUnder (r t : LC) : LC :=
  if r.getLast? = some '/' then r ++ t else r ++ '/' :: t

/-- `p` is a proper descendant of `r` under the separator-boundary
comparison of the specification. -/
def ProperDesc (p r : LC) : Prop := ∃ t, t ≠ [] ∧ p = appendUnder r t

/-- `p` is `r` itself or a proper descendant of `r`. -/
def DescEq (p r : LC) : Prop := p = r ∨ ProperDesc p r

/-- Boolean check implied by `DescEq` (used to refute `DescEq` on
concrete paths). -/
def descB (p r : LC) : Bool :=
  if p = r then true
  else if r.getLast? = some '/' then startsWithL p r
  else startsWithL p (r ++ ['/'])

/-- Error taxonomy of `create_folder` (`app/files/routes.py`):
`accessDenied` is the 403 from `validate_path`, `alreadyExists` the 400
raised when the target already exists. -/
inductive CFErr where
  | accessDenied
  | alreadyExists
deriving DecidableEq

instance {ε α : Type} [DecidableEq ε] [DecidableEq α] : DecidableEq (Except ε α) :=
  fun a b =>
  match a, b with
  | .error e1, .error e2 =>
    if h : e1 = e2 then .isTrue (by rw [h]) else .isFalse (by intro hx; cases hx; exact h rfl)
  | .ok v1, .ok v2 =>
    if h : v1 = v2 then .isTrue (by rw [h]) else .isFalse (by intro hx; cases hx; exact h rfl)
  | .error _, .ok _ => .isFalse (by intro hx; cases hx)
  | .ok _, .error _ => .isFalse (by intro hx; cases hx)

/-- `create_folder` (`app/files/routes.py`): path computation and the
existence check; `ex` is the `os.path.exists` oracle for the current
filesystem state.  On success the returned value is the directory path
handed to `os.makedirs`. -/
def create_folder (cwd uid path name : LC) (ex : LC → Bool) : Except CFErr LC :=
  match validate_path cwd (get_user_directory cwd uid) path with
  | .error _ => .error .accessDenied
  | .ok parent_path =>
    let folder_path := joinOne parent_path name
    if ex folder_path then .error .alreadyExists
    else .ok folder_path

/-- JSON-serialisable claim values carried in a token payload. -/
inductive JVal where
  | str : LC → JVal
  | num : Nat → JVal
deriving DecidableEq

/-- A decoded token payload (Python dict of claims, insertion order). -/
abbrev Payload := List (LC × JVal)

/-- Python `dict.get` / key lookup on a payload. -/
def lookupD : Payload → LC → Option JVal
  | [], _ => none
  | (k', v) :: rest, k => if k' = k then some v else lookupD rest k

/-- Python `dict.update({k: v})`: replace in place when the key exists,
append otherwise. -/
def updateD (d : Payload) (k : LC) (v : JVal) : Payload :=
  if (lookupD d k).isSome then
    d.map (fun p => if p.1 = k then (k, v) else p)
  else d ++ [(k, v)]

/-- Numeric encoding of a claim value, for the abstract signature. -/
def encJVal : JVal → Nat
  | .str s => s.foldl (fun a c => a + c.toNat) 1
  | .num n => n + 2

/-- Abstract model of the HMAC-SHA256 signature `python-jose` computes
over the payload with the server secret (the real MAC is not modelled;
only the check `sig = hashD secret payload` structure matters). -/
def hashD (secret : Nat) (d : Payload) : Nat :=
  d.foldl (fun a p => a + p.1.foldl (fun x c => x + c.toNat) 0 + encJVal p.2) (secret + 1)

/-- A structurally well-formed signed token (payload plus signature). -/
structure Token where
  payload : Payload
  sig : Nat
deriving DecidableEq

/-- What `jwt.decode` receives: either a string that fails to parse as
a token at all (`malformed`) or a structurally valid token. -/
inductive TokenWire where
  | malformed
  | tok : Token → TokenWire
deriving DecidableEq

/-- The `"exp"` claim key. -/
def expKey : LC := "exp".data

/-- The `"id"` claim key. -/
def idKey : LC := "id".data

/-- The standard `"iat"` (issued-at) claim key — never written by the
source. -/
def iatKey : LC := "iat".data

/-- `ACCESS_TOKEN_EXPIRE_HOURS` (`app/middleware/auth.py`). -/
def ACCESS_TOKEN_EXPIRE_HOURS : Nat := 24

/-- `AuthMiddleware.create_access_token` (`app/middleware/auth.py`).
Times are seconds; `now` is `datetime.utcnow()`, `expires_delta` the
optional caller override. -/
def create_access_token (secret now : Nat) (data : Payload)
    (expires_delta : Option Nat) : Token :=
  let expire := now + expires_delta.getD (ACCESS_TOKEN_EXPIRE_HOURS * 3600)
  let to_encode := updateD data expKey (.num expire)
  ⟨to_encode, hashD secret to_encode⟩

/-- `AuthMiddleware.verify_token` (`app/middleware/auth.py`):
`jwt.decode` checks the signature, then rejects an `exp` claim in the
past (`ExpiredSignatureError`); every `JWTError` — malformed input,
signature mismatch, expiry — is caught and mapped to `None`. -/
def verify_token (secret now : Nat) (w : TokenWire) : Option Payload :=
  match w with
  | .malformed => none
  | .tok t =>
    if t.sig = hashD secret t.payload then
      match lookupD t.payload expKey with
      | some (.num e) => if e < now then none else some t.payload
      | _ => some t.payload
    else none

/-- `get_current_user` (`app/middleware/auth.py`): a `None` payload or
a missing `"id"` claim raises the 401 `credentials_exception`. -/
def get_current_user (secret now : Nat) (w : TokenWire) : Except Nat Payload :=
  match verify_token secret now w with
  | none => .error 401
  | some payload =>
    match lookupD payload idKey with
    | none => .error 401
    | some _ => .ok payload

/-- `ALLOWED_EXTENSIONS` (`app/files/routes.py`). -/
def ALLOWED_EXTENSIONS : List LC :=
  ["txt".data, "pdf".data, "png".data, "jpg".data, "jpeg".data, "gif".data,
   "doc".data, "docx".data, "ppt".data, "pptx".data]

/-- `MAX_FILE_SIZE = 10 * 1024 * 1024` (`app/files/routes.py`). -/
def MAX_FILE_SIZE : Nat := 10 * 1024 * 1024

/-- Python `s.lower()` (ASCII case folding suffices for the model). -/
def lowerL (l : LC) : LC := l.map Char.toLower

/-- `filename.rsplit('.', 1)[1]`: the part after the last dot. -/
def extOf (l : LC) : LC := (l.reverse.takeWhile (fun c => c ≠ '.')).reverse

/-- `allowed_file` (`app/files/routes.py`). -/
def allowed_file (filename : LC) : Bool :=
  filename.contains '.' && ALLOWED_EXTENSIONS.contains (lowerL (extOf filename))

/-- Upload validation failures of `upload_file` (`app/files/routes.py`):
400 "No file selected", 400 "File type not allowed",
400 "File size exceeds maximum limit (10MB)". -/
inductive UploadErr where
  | noFile
  | disallowedType
  | tooLarge
deriving DecidableEq

/-- The validation chain of `upload_file` (`app/files/routes.py`) in
source order: empty filename, extension allow-list, then
`len(file_content) > MAX_FILE_SIZE` after reading the body. -/
def upload_validate (filename : LC) (file_content : List Nat) : Except UploadErr Unit :=
  if filename = [] then .error .noFile
  else if allowed_file filename = false then .error .disallowedType
  else if MAX_FILE_SIZE < file_content.length then .error .tooLarge
  else .ok ()

/-- `FileItem` (`app/files/routes.py`). -/
structure FileItem where
  name : LC
  path : LC
  type : LC
  size : Option Nat
  modified : Option Nat
deriving DecidableEq

/-- The `"file"` type tag. -/
def fileLit : LC := "file".data

/-- The `"folder"` type tag. -/
def folderLit : LC := "folder".data

/-- The Boolean `x.type == "file"`, first component of the sort key. -/
def isFileT (a : FileItem) : Bool := decide (a.type = fileLit)

/-- Python string `<=` (lexicographic by code point). -/
def strLe : LC → LC → Bool
  | [], _ => true
  | _ :: _, [] => false
  | a :: as, b :: bs =>
    if a.toNat < b.toNat then true
    else if b.toNat < a.toNat then false
    else strLe as bs

/-- The order induced by the sort key
`lambda x: (x.type == "file", x.name.lower())` of `get_file_tree`. -/
def itemLeB (a b : FileItem) : Bool :=
  if isFileT a = isFileT b then strLe (lowerL a.name) (lowerL b.name)
  else (!isFileT a && isFileT b)

/-- `itemLeB` as a relation. -/
def itemLe (a b : FileItem) : Prop := itemLeB a b = true

instance : DecidableRel itemLe :=
  fun a b => inferInstanceAs (Decidable (itemLeB a b = true))

/-- `items.sort(key=lambda x: (x.type == "file", x.name.lower()))` of
`get_file_tree`; Python's sort is a stable sort by that key, modelled
by a stable insertion sort under the same order. -/
def sortItems (items : List FileItem) : List FileItem :=
  List.insertionSort itemLe items

/-- The ordering the listing claim asserts between any earlier and any
later entry: no file strictly before a folder, and entries of equal
type in ascending case-insensitive name order. -/
def claimRel (a b : FileItem) : Prop :=
  (isFileT a = true → isFileT b = true) ∧
  (a.type = b.type → strLe (lowerL a.name) (lowerL b.name) = true)

/-- `FileTreeResponse` (`app/files/routes.py`). -/
structure FileTreeResponse where
  tree : List FileItem
  current_path : LC
deriving DecidableEq

/-- The name under which `q` is an immediate child of directory `d`
(`os.listdir` membership, derived from the path map). -/
def childNameOf (d q : LC) : Option LC :=
  if startsWithL q (d ++ ['/']) then
    let n := q.drop (d.length + 1)
    if n ≠ [] ∧ '/' ∉ n then some n else none
  else none

/-- `os.path.join(path, item_name) if path else item_name`. -/
def relPath (reqPath n : LC) : LC :=
  if reqPath = [] then n else joinOne reqPath n

/-- The filesystem state the listing model needs: existing directories
with their mtimes, and files with size and mtime (absolute paths). -/
structure World where
  dirs : List (LC × Nat)
  files : List (LC × Nat × Nat)
deriving DecidableEq

/-- Separator-boundary prefixes of `p` (the ancestors `os.makedirs`
creates) together with `p` itself. -/
def slashPrefixes (p : LC) : List LC :=
  ((List.range p.length).filterMap
    (fun i => if 0 < i ∧ p[i]? = some '/' then some (p.take i) else none)) ++ [p]

/-- `os.makedirs(p, exist_ok=True)` on the directory map: create every
missing separator-boundary ancestor and `p` itself (fresh directories
get mtime 0); existing entries are kept. -/
def makedirs (dirs : List (LC × Nat)) (p : LC) : List (LC × Nat) :=
  (slashPrefixes p).foldl
    (fun acc q => if acc.any (fun e => e.1 = q) then acc else acc ++ [(q, 0)]) dirs

/-- The loop body of `get_file_tree` over `os.listdir(full_path)`:
build a `FileItem` per immediate child, folders from the directory map
and files from the file map. -/
def listItems (dirs : List (LC × Nat)) (files : List (LC × Nat × Nat))
    (full reqPath : LC) : List FileItem :=
  (dirs.filterMap (fun e =>
    match childNameOf full e.1 with
    | some n => some ⟨n, relPath reqPath n, folderLit, none, some e.2⟩
    | none => none)) ++
  (files.filterMap (fun e =>
    match childNameOf full e.1 with
    | some n => some ⟨n, relPath reqPath n, fileLit, some e.2.1, some e.2.2⟩
    | none => none))

/-- `get_file_tree` (`app/files/routes.py`): validate the path, ensure
the directory exists (`os.makedirs(full_path, exist_ok=True)`), list,
sort, respond; the first component is the updated filesystem state. -/
def get_file_tree (cwd uid reqPath : LC) (w : World) :
    World × Except Unit FileTreeResponse :=
  match validate_path cwd (get_user_directory cwd uid) reqPath with
  | .error _ => (w, .error ())
  | .ok full_path =>
    let dirs' := makedirs w.dirs full_path
    let items := listItems dirs' w.files full_path reqPath
    (⟨dirs', w.files⟩, .ok ⟨sortItems items, reqPath⟩)

/-- A CPython `OSError` as raised by `os.listdir` / `os.stat` /
`aiofiles.open`: errno, message, and the `filename` attribute holding
the path the operation was attempted on. -/
structure OSErrorModel where
  errno : Nat
  strerror : LC
  filename : LC

/-- CPython `str(e)` for an `OSError` carrying a filename:
`[Errno N] message: 'filename'`. -/
def strOfOSError (e : OSErrorModel) : LC :=
  "[Errno ".data ++ Nat.toDigits 10 e.errno ++ "] ".data ++ e.strerror
    ++ ": '".data ++ e.filename ++ "'".data

/-- The 500 detail of `get_file_tree`'s catch-all handler:
`f"Failed to read directory: {str(e)}"`. -/
def tree_error_detail (e : OSErrorModel) : LC :=
  "Failed to read directory: ".data ++ strOfOSError e

/-- The 500 detail of `upload_file`'s catch-all handler:
`f"Upload failed: {str(e)}"`. -/
def upload_error_detail (e : OSErrorModel) : LC :=
  "Upload failed: ".data ++ strOfOSError e

/-- A path component that can appear in a canonical absolute path:
nonempty, not `.`, not `..`, and free of separators. -/
def CleanSeg (c : LC) : Prop :=
  c ≠ [] ∧ c ≠ ['.'] ∧ c ≠ ['.', '.'] ∧ '/' ∉ c

/-! ## Lemmas about the string sanitizer of `validate_path` -/

theorem hasDD_cons (c : Char) (l : LC) :
    hasDD (c :: l) = ((decide (c = '.') && decide (l.head? = some '.')) || hasDD l) := rfl

theorem hasDD_tail {c : Char} {l : LC} (h : hasDD (c :: l) = false) : hasDD l = false := by
  rw [hasDD_cons] at h
  exact (Bool.or_eq_false_iff.mp h).2

theorem hasDD_of_tail {l : LC} (c : Char) (h : hasDD l = true) : hasDD (c :: l) = true := by
  rw [hasDD_cons, h, Bool.or_true]

theorem stripDotDot_cons_ne {d : Char} (r : LC) (hd : d ≠ '.') :
    stripDotDot (d :: r) = d :: stripDotDot r := by
  cases r with
  | nil => rfl
  | cons e r' =>
    rw [stripDotDot]
    rw [if_neg]
    intro h
    exact hd h.1

theorem hasDD_stripDotDot (l : LC) : hasDD (stripDotDot l) = false := by
  induction l using stripDotDot.induct with
  | case1 => rfl
  | case2 c => simp [stripDotDot, hasDD]
  | case3 c d rest h ih =>
    rw [stripDotDot, if_pos h]
    exact ih
  | case4 c d rest h ih =>
    rw [stripDotDot, if_neg h, hasDD_cons]
    refine Bool.or_eq_false_iff.mpr ⟨?_, ih⟩
    by_cases hc : c = '.'
    · have hd : d ≠ '.' := fun hd => h ⟨hc, hd⟩
      rw [stripDotDot_cons_ne rest hd]
      simp [hd]
    · simp [hc]

theorem collapseSlash_head (d : Char) (r : LC) :
    (collapseSlash (d :: r)).head? = some d := by
  cases r with
  | nil => rfl
  | cons e r' =>
    rw [collapseSlash]
    by_cases h : d = '/' ∧ e = '/'
    · rw [if_pos h, h.1]
      rfl
    · rw [if_neg h]
      rfl

theorem hasDD_collapseSlash {l : LC} (h : hasDD l = false) :
    hasDD (collapseSlash l) = false := by
  induction l using collapseSlash.induct with
  | case1 => rfl
  | case2 c => simp [collapseSlash, hasDD]
  | case3 c d rest hcd ih =>
    rw [collapseSlash, if_pos hcd, hasDD_cons]
    refine Bool.or_eq_false_iff.mpr ⟨?_, ih (hasDD_tail (hasDD_tail h))⟩
    simp
  | case4 c d rest hcd ih =>
    rw [collapseSlash, if_neg hcd, hasDD_cons]
    refine Bool.or_eq_false_iff.mpr ⟨?_, ih (hasDD_tail h)⟩
    rw [collapseSlash_head]
    rw [hasDD_cons] at h
    have := (Bool.or_eq_false_iff.mp h).1
    simpa using this

theorem hasDD_append_right {s : LC} (t : LC) (h : hasDD s = true) :
    hasDD (s ++ t) = true := by
  induction s with
  | nil => cases h
  | cons c rest ih =>
    rw [hasDD_cons] at h
    rcases Bool.or_eq_true_iff.mp h with h1 | h1
    · have hc : c = '.' := by simpa using (Bool.and_eq_true_iff.mp h1).1
      have hr : rest.head? = some '.' := by simpa using (Bool.and_eq_true_iff.mp h1).2
      rcases rest with _ | ⟨e, r'⟩
      · cases hr
      · have he : e = '.' := by simpa using hr
        subst hc he
        rw [List.cons_append, hasDD_cons]
        simp
    · rw [List.cons_append]
      exact hasDD_of_tail c (ih h1)

theorem hasDD_append_left (s : LC) {t : LC} (h : hasDD t = true) :
    hasDD (s ++ t) = true := by
  induction s with
  | nil => simpa using h
  | cons c rest ih => exact hasDD_of_tail c ih

theorem hasDD_infix {l m u v : LC} (h : hasDD l = false) (he : l = u ++ m ++ v) :
    hasDD m = false := by
  by_contra hm
  have hm' : hasDD m = true := by
    cases hx : hasDD m
    · exact absurd hx hm
    · rfl
  have : hasDD l = true := by
    rw [he, List.append_assoc]
    exact hasDD_append_left u (hasDD_append_right v hm')
  rw [h] at this
  cases this

theorem rev_take_drop (r : LC) (p : Char → Bool) :
    r.reverse = (r.dropWhile p).reverse ++ (r.takeWhile p).reverse := by
  conv_lhs => rw [← List.takeWhile_append_dropWhile p r]
  rw [List.reverse_append]

theorem stripSlashes_is_infix (l : LC) :
    ∃ u v, l = u ++ stripSlashes l ++ v := by
  refine ⟨l.takeWhile (fun c => c = '/'),
    ((l.dropWhile (fun c => c = '/')).reverse.takeWhile (fun c => c = '/')).reverse, ?_⟩
  have h3 := rev_take_drop (l.dropWhile (fun c => c = '/')).reverse (fun c => c = '/')
  rw [List.reverse_reverse] at h3
  unfold stripSlashes
  conv_lhs => rw [← List.takeWhile_append_dropWhile (fun c => (c = '/' : Bool)) l, h3]
  rw [List.append_assoc]

theorem hasDD_stripSlashes {l : LC} (h : hasDD l = false) :
    hasDD (stripSlashes l) = false := by
  obtain ⟨u, v, he⟩ := stripSlashes_is_infix l
  exact hasDD_infix h he

theorem head_dropWhileSlash {l : LC} {c : Char}
    (h : (l.dropWhile (fun c => c = '/')).head? = some c) : c ≠ '/' := by
  induction l with
  | nil => cases h
  | cons a l' ih =>
    by_cases ha : a = '/'
    · rw [List.dropWhile_cons, if_pos (by simpa using ha)] at h
      exact ih h
    · rw [List.dropWhile_cons, if_neg (by simpa using ha)] at h
      have : a = c := by simpa using h
      rw [← this]
      exact ha

theorem stripSlashes_head {l : LC} {c : Char}
    (h : (stripSlashes l).head? = some c) : c ≠ '/' := by
  have h3 := rev_take_drop (l.dropWhile (fun c => c = '/')).reverse (fun c => c = '/')
  rw [List.reverse_reverse] at h3
  have hy : (l.dropWhile (fun c => c = '/')).head? = some c := by
    rw [h3]
    rcases hz : stripSlashes l with _ | ⟨a, w⟩
    · rw [hz] at h
      cases h
    · rw [hz] at h
      have ha : a = c := by simpa using h
      unfold stripSlashes at hz
      rw [hz, List.cons_append]
      simp [ha]
  exact head_dropWhileSlash hy

/-! ## Small generic list helpers -/

theorem headQ_append {a : LC} (b : LC) (h : a ≠ []) : (a ++ b).head? = a.head? := by
  cases a with
  | nil => exact absurd rfl h
  | cons c a' => rfl

theorem lastQ_append (a : LC) {b : LC} (h : b ≠ []) :
    (a ++ b).getLast? = b.getLast? := by
  induction a with
  | nil => rfl
  | cons c a' ih =>
    rcases hx : a' ++ b with _ | ⟨d, x⟩
    · rcases List.append_eq_nil.mp hx with ⟨_, h2⟩
      exact absurd h2 h
    · rw [List.cons_append, hx, List.getLast?_cons_cons, ← hx, ih]

theorem lastQ_mem : ∀ {l : LC} {c : Char}, l.getLast? = some c → c ∈ l
  | [], _, h => by cases h
  | [a], c, h => by
    have ha : a = c := by simpa using h
    rw [ha]
    exact List.mem_cons_self _ _
  | a :: d :: x, c, h => by
    rw [List.getLast?_cons_cons] at h
    exact List.mem_cons_of_mem _ (lastQ_mem h)

theorem startsWithL_append (a t : LC) : startsWithL (a ++ t) a = true := by
  induction a with
  | nil => simp [startsWithL]
  | cons c a' ih => simpa [startsWithL] using ih

theorem startsWithL_self (a : LC) : startsWithL a a = true := by
  have := startsWithL_append a []
  rwa [List.append_nil] at this

theorem startsWithL_length {q pre : LC} (h : startsWithL q pre = true) :
    pre.length ≤ q.length := by
  induction pre generalizing q with
  | nil => simp
  | cons b bs ih =>
    cases q with
    | nil => cases h
    | cons a as =>
      rw [startsWithL, Bool.and_eq_true] at h
      have := ih h.2
      simpa using Nat.succ_le_succ this

/-! ## Lemmas about `splitSlash` -/

theorem splitSlash_ne_nil (l : LC) : splitSlash l ≠ [] := by
  cases l with
  | nil => simp [splitSlash]
  | cons c rest =>
    rw [splitSlash]
    by_cases h : c = '/'
    · rw [if_pos h]
      simp
    · rw [if_neg h]
      rcases hx : splitSlash rest with _ | ⟨s, ss⟩ <;> simp

theorem splitSlash_cons_slash (rest : LC) :
    splitSlash ('/' :: rest) = [] :: splitSlash rest := by
  rw [splitSlash, if_pos rfl]

theorem splitSlash_cons_ne {c : Char} (rest : LC) (hc : c ≠ '/') :
    splitSlash (c :: rest) =
      (c :: (splitSlash rest).headD []) :: (splitSlash rest).tail := by
  rw [splitSlash, if_neg hc]
  rcases hx : splitSlash rest with _ | ⟨s, ss⟩
  · exact absurd hx (splitSlash_ne_nil rest)
  · rfl

theorem splitSlash_append (a b : LC) :
    splitSlash (a ++ '/' :: b) = splitSlash a ++ splitSlash b := by
  induction a with
  | nil =>
    rw [List.nil_append, splitSlash_cons_slash]
    rfl
  | cons c a' ih =>
    by_cases hc : c = '/'
    · subst hc
      rw [List.cons_append, splitSlash_cons_slash, splitSlash_cons_slash, ih,
        List.cons_append]
    · rw [List.cons_append, splitSlash_cons_ne _ hc, splitSlash_cons_ne _ hc, ih]
      rcases hx : splitSlash a' with _ | ⟨s, ss⟩
      · exact absurd hx (splitSlash_ne_nil a')
      · simp

theorem splitSlash_head_pref {l : LC} {s : LC} {ss : List LC}
    (h : splitSlash l = s :: ss) : ∃ t, l = s ++ t := by
  induction l generalizing s ss with
  | nil =>
    rw [splitSlash] at h
    have hs : s = [] := (List.cons.inj h).1.symm
    exact ⟨[], by simp [hs]⟩
  | cons c rest ih =>
    by_cases hc : c = '/'
    · subst hc
      rw [splitSlash_cons_slash] at h
      have hs : s = [] := (List.cons.inj h).1.symm
      exact ⟨'/' :: rest, by simp [hs]⟩
    · rw [splitSlash_cons_ne _ hc] at h
      rcases hx : splitSlash rest with _ | ⟨s₀, ss₀⟩
      · exact absurd hx (splitSlash_ne_nil rest)
      · rw [hx] at h
        obtain ⟨t, ht⟩ := ih hx
        have hs : s = c :: s₀ := (List.cons.inj h).1.symm
        refine ⟨t, ?_⟩
        rw [hs, List.cons_append, ← ht]

theorem splitSlash_noslash {l : LC} {seg : LC} (h : seg ∈ splitSlash l) :
    '/' ∉ seg := by
  induction l generalizing seg with
  | nil =>
    rw [splitSlash] at h
    rcases List.mem_singleton.mp h with rfl
    simp
  | cons c rest ih =>
    by_cases hc : c = '/'
    · subst hc
      rw [splitSlash_cons_slash] at h
      rcases List.mem_cons.mp h with rfl | h2
      · simp
      · exact ih h2
    · rw [splitSlash_cons_ne _ hc] at h
      rcases hx : splitSlash rest with _ | ⟨s₀, ss₀⟩
      · exact absurd hx (splitSlash_ne_nil rest)
      · rw [hx] at h
        rcases List.mem_cons.mp h with rfl | h2
        · intro hmem
          rcases List.mem_cons.mp hmem with h3 | h3
          · exact hc h3.symm
          · exact ih (by rw [hx]; exact List.mem_cons_self _ _) h3
        · exact ih (by rw [hx]; exact List.mem_cons_of_mem _ h2)

theorem splitSlash_no_dd {l : LC} (hdd : hasDD l = false) {seg : LC}
    (h : seg ∈ splitSlash l) : seg ≠ ['.', '.'] := by
  induction l generalizing seg with
  | nil =>
    rw [splitSlash] at h
    rcases List.mem_singleton.mp h with rfl
    simp
  | cons c rest ih =>
    by_cases hc : c = '/'
    · subst hc
      rw [splitSlash_cons_slash] at h
      rcases List.mem_cons.mp h with rfl | h2
      · simp
      · exact ih (hasDD_tail hdd) h2
    · rw [splitSlash_cons_ne _ hc] at h
      rcases hx : splitSlash rest with _ | ⟨s₀, ss₀⟩
      · exact absurd hx (splitSlash_ne_nil rest)
      · rw [hx] at h
        rcases List.mem_cons.mp h with rfl | h2
        · intro hbad
          have hcdot : c = '.' := (List.cons.inj hbad).1
          have hs₀ : s₀ = ['.'] := (List.cons.inj hbad).2
          obtain ⟨t, ht⟩ := splitSlash_head_pref hx
          rw [hs₀] at ht
          rw [hasDD_cons] at hdd
          have h1 := (Bool.or_eq_false_iff.mp hdd).1
          rw [ht] at h1
          simp [hcdot] at h1
        · exact ih (hasDD_tail hdd) (by rw [hx]; exact List.mem_cons_of_mem _ h2)

theorem splitSlash_sf {l : LC} (h : '/' ∉ l) : splitSlash l = [l] := by
  induction l with
  | nil => rfl
  | cons c rest ih =>
    have hc : c ≠ '/' := fun hc => h (by rw [hc]; exact List.mem_cons_self _ _)
    rw [splitSlash_cons_ne _ hc, ih (fun hm => h (List.mem_cons_of_mem _ hm))]
    rfl

/-! ## Lemmas about the `normpath` component loop -/

theorem normStep_nil (abs : Bool) (acc : List LC) : normStep abs acc [] = acc := by
  rw [normStep.eq_def, if_pos (Or.inl rfl)]

theorem foldl_normStep_no_dd {segs : List LC} (abs : Bool)
    (h : ∀ c ∈ segs, c ≠ ['.', '.']) :
    ∀ acc, List.foldl (normStep abs) acc segs = (segs.filter goodSeg).reverse ++ acc := by
  induction segs with
  | nil => intro acc; simp
  | cons c rest ih =>
    intro acc
    rw [List.foldl_cons]
    have hc := h c (List.mem_cons_self _ _)
    have hrest : ∀ x ∈ rest, x ≠ ['.', '.'] := fun x hx => h x (List.mem_cons_of_mem _ hx)
    by_cases hskip : c = [] ∨ c = ['.']
    · have hstep : normStep abs acc c = acc := by
        rw [normStep.eq_def, if_pos hskip]
      have hgood : goodSeg c = false := by
        rcases hskip with h1 | h1 <;> simp [goodSeg, h1]
      rw [hstep, ih hrest acc, List.filter_cons, hgood]
      simp
    · have hstep : normStep abs acc c = c :: acc := by
        rw [normStep.eq_def, if_neg hskip, if_neg hc]
      have hgood : goodSeg c = true := by
        push_neg at hskip
        simp [goodSeg, hskip.1, hskip.2]
      rw [hstep, ih hrest (c :: acc), List.filter_cons, hgood]
      simp

theorem foldl_normStep_clean {segs : List LC}
    (hsf : ∀ c ∈ segs, '/' ∉ c) :
    ∀ acc, (∀ x ∈ acc, CleanSeg x) →
      ∀ x ∈ List.foldl (normStep true) acc segs, CleanSeg x := by
  induction segs with
  | nil =>
    intro acc hacc x hx
    exact hacc x hx
  | cons c rest ih =>
    intro acc hacc x hx
    rw [List.foldl_cons] at hx
    have hcsf : '/' ∉ c := hsf c (List.mem_cons_self _ _)
    have hrest : ∀ d ∈ rest, '/' ∉ d := fun d hd => hsf d (List.mem_cons_of_mem _ hd)
    refine ih hrest _ ?_ x hx
    intro y hy
    by_cases h1 : c = [] ∨ c = ['.']
    · rw [show normStep true acc c = acc from by rw [normStep.eq_def, if_pos h1]] at hy
      exact hacc y hy
    · by_cases h2 : c = ['.', '.']
      · subst h2
        rcases acc with _ | ⟨a, acc'⟩
        · rw [show normStep true [] (['.', '.'] : LC) = [] from by
            rw [normStep.eq_def]
            simp] at hy
          simp at hy
        · by_cases h3 : a = ['.', '.']
          · exact absurd h3 (hacc a (List.mem_cons_self _ _)).2.2.1
          · rw [show normStep true (a :: acc') (['.', '.'] : LC) = acc' from by
              rw [normStep.eq_def]
              simp [h3]] at hy
            exact hacc y (List.mem_cons_of_mem _ hy)
      · rw [show normStep true acc c = c :: acc from by
          rw [normStep.eq_def, if_neg h1, if_neg h2]] at hy
        rcases List.mem_cons.mp hy with rfl | hy2
        · push_neg at h1
          exact ⟨h1.1, h1.2, h2, hcsf⟩
        · exact hacc y hy2

/-! ## Lemmas about `intercSlash` -/

theorem intercSlash_cons (b : LC) {X : List LC} (h : X ≠ []) :
    intercSlash (b :: X) = b ++ '/' :: intercSlash X := by
  cases X with
  | nil => exact absurd rfl h
  | cons s rest => rfl

theorem intercSlash_append {B S : List LC} (hB : B ≠ []) (hS : S ≠ []) :
    intercSlash (B ++ S) = intercSlash B ++ '/' :: intercSlash S := by
  induction B with
  | nil => exact absurd rfl hB
  | cons b B' ih =>
    cases B' with
    | nil =>
      rw [List.cons_append, List.nil_append, intercSlash_cons b hS]
      rfl
    | cons b2 B'' =>
      rw [List.cons_append, intercSlash_cons b (by simp),
        intercSlash_cons b (X := b2 :: B'') (by simp), ih (by simp)]
      simp

theorem intercSlash_ne_nil {S : List LC} (hS : S ≠ []) (h : ∀ c ∈ S, c ≠ []) :
    intercSlash S ≠ [] := by
  cases S with
  | nil => exact absurd rfl hS
  | cons s rest =>
    cases rest with
    | nil =>
      simp only [intercSlash]
      exact h s (List.mem_cons_self _ _)
    | cons s2 r2 =>
      rw [intercSlash_cons s (by simp)]
      intro hbad
      rcases List.append_eq_nil.mp hbad with ⟨_, h2⟩
      cases h2

theorem intercSlash_head (s : LC) (rest : List LC) (hs : s ≠ []) :
    (intercSlash (s :: rest)).head? = s.head? := by
  cases rest with
  | nil => rfl
  | cons s2 r2 =>
    rw [intercSlash_cons s (by simp)]
    exact headQ_append _ hs

theorem intercSlash_last {S : List LC} (hS : S ≠ [])
    (h : ∀ c ∈ S, c ≠ [] ∧ '/' ∉ c) :
    ∃ c, (intercSlash S).getLast? = some c ∧ c ≠ '/' := by
  induction S with
  | nil => exact absurd rfl hS
  | cons s rest ih =>
    cases rest with
    | nil =>
      have hs := h s (List.mem_cons_self _ _)
      have h1 : s.getLast?.isSome := List.getLast?_isSome.mpr hs.1
      rcases Option.isSome_iff_exists.mp h1 with ⟨c, hc⟩
      refine ⟨c, by simpa [intercSlash] using hc, ?_⟩
      intro h2
      rw [h2] at hc
      exact hs.2 (lastQ_mem hc)
    | cons s2 r2 =>
      obtain ⟨c, hc1, hc2⟩ := ih (by simp) (fun d hd => h d (List.mem_cons_of_mem _ hd))
      refine ⟨c, ?_, hc2⟩
      rw [intercSlash_cons s (by simp), lastQ_append s (by simp)]
      rcases hx : intercSlash (s2 :: r2) with _ | ⟨d, x⟩
      · exact absurd hx
          (intercSlash_ne_nil (by simp) (fun d hd => (h d (List.mem_cons_of_mem _ hd)).1))
      · rw [List.getLast?_cons_cons, ← hx, hc1]

/-! ## Lemmas about `slashPre` and `joinOne` -/

theorem slashPre_cases (p : LC) :
    slashPre p = [] ∨ slashPre p = ['/'] ∨ slashPre p = ['/', '/'] := by
  rw [slashPre]
  split
  · split
    · split
      · exact Or.inr (Or.inl rfl)
      · exact Or.inr (Or.inr rfl)
    · exact Or.inr (Or.inl rfl)
  · exact Or.inl rfl

theorem slashPre_ne_nil {p : LC} (h : p.head? = some '/') : slashPre p ≠ [] := by
  rw [slashPre, if_pos h]
  split
  · split <;> simp
  · simp

theorem slashPre_nil_of_ne {p : LC} (h : p.head? ≠ some '/') : slashPre p = [] := by
  rw [slashPre, if_neg h]

theorem slashPre_last {p : LC} (h : p.head? = some '/') :
    (slashPre p).getLast? = some '/' := by
  rcases slashPre_cases p with h1 | h1 | h1
  · exact absurd h1 (slashPre_ne_nil h)
  · rw [h1]
    rfl
  · rw [h1]
    rfl

theorem slashPre_head {p : LC} (h : p.head? = some '/') :
    (slashPre p).head? = some '/' := by
  rcases slashPre_cases p with h1 | h1 | h1
  · exact absurd h1 (slashPre_ne_nil h)
  · rw [h1]
    rfl
  · rw [h1]
    rfl

theorem joinOne_head {a s : LC} (ha : a ≠ []) (hs : s.head? ≠ some '/') :
    (joinOne a s).head? = a.head? := by
  rw [joinOne, if_neg hs]
  split
  · exact headQ_append s ha
  · exact headQ_append _ ha

theorem joinOne_ne_nil {a : LC} (s : LC) (ha : a ≠ []) : joinOne a s ≠ [] := by
  rw [joinOne]
  split
  next hcond =>
    intro h
    rw [h] at hcond
    cases hcond
  next =>
    split <;>
      (intro h
       rcases List.append_eq_nil.mp h with ⟨h1, _⟩
       exact ha h1)

theorem slashPre_joinOne {J s : LC} (hJ : J.head? = some '/')
    (hs : s.head? ≠ some '/') : slashPre (joinOne J s) = slashPre J := by
  rcases J with _ | ⟨c0, J₁⟩
  · cases hJ
  · have hc0 : c0 = '/' := by simpa using hJ
    subst hc0
    rw [joinOne, if_neg hs]
    by_cases hlast : ('/' :: J₁ : LC) = [] ∨ ('/' :: J₁ : LC).getLast? = some '/'
    · rw [if_pos hlast]
      rcases J₁ with _ | ⟨c1, J₂⟩
      · rcases hs' : s with _ | ⟨a, s'⟩
        · simp [slashPre]
        · have ha : a ≠ '/' := by
            intro hh
            rw [hs', hh] at hs
            exact hs rfl
          simp [slashPre, ha]
      · by_cases hc1 : c1 = '/'
        · subst hc1
          rcases J₂ with _ | ⟨c2, J₃⟩
          · rcases hs' : s with _ | ⟨a, s'⟩
            · simp [slashPre]
            · have ha : a ≠ '/' := by
                intro hh
                rw [hs', hh] at hs
                exact hs rfl
              simp [slashPre, ha]
          · by_cases hc2 : c2 = '/'
            · subst hc2
              simp [slashPre]
            · simp [slashPre, hc2]
        · simp [slashPre, hc1]
    · rw [if_neg hlast]
      rcases J₁ with _ | ⟨c1, J₂⟩
      · exact absurd (Or.inr rfl) hlast
      · by_cases hc1 : c1 = '/'
        · subst hc1
          rcases J₂ with _ | ⟨c2, J₃⟩
          · exact absurd (Or.inr (by decide)) hlast
          · by_cases hc2 : c2 = '/'
            · subst hc2
              simp [slashPre]
            · simp [slashPre, hc2]
        · simp [slashPre, hc1]

theorem joinOne_ne_nil2 {a b : LC} (hb : b ≠ []) : joinOne a b ≠ [] := by
  rw [joinOne]
  split
  · exact hb
  · split
    · intro h
      exact hb (List.append_eq_nil.mp h).2
    · intro h
      cases (List.append_eq_nil.mp h).2

theorem joinOne_assoc {a b s : LC} (hb : b ≠ []) (hbh : b.head? ≠ some '/')
    (hs : s.head? ≠ some '/') :
    joinOne a (joinOne b s) = joinOne (joinOne a b) s := by
  have h5 : (b ++ s).head? ≠ some '/' := by
    rw [headQ_append s hb]
    exact hbh
  have h6 : (b ++ '/' :: s).head? ≠ some '/' := by
    rw [headQ_append _ hb]
    exact hbh
  have hg : (a ++ b).getLast? = b.getLast? := lastQ_append a hb
  have hg2 : (a ++ '/' :: b).getLast? = b.getLast? := by
    rw [lastQ_append a (by simp)]
    cases b with
    | nil => exact absurd rfl hb
    | cons x xs => rw [List.getLast?_cons_cons]
  by_cases hc2 : b = [] ∨ b.getLast? = some '/'
  · have hbl : b.getLast? = some '/' := by
      rcases hc2 with h | h
      · exact absurd h hb
      · exact h
    have hbs : joinOne b s = b ++ s := by rw [joinOne, if_neg hs, if_pos hc2]
    by_cases hc1 : a = [] ∨ a.getLast? = some '/'
    · have hab : joinOne a b = a ++ b := by rw [joinOne, if_neg hbh, if_pos hc1]
      rw [hbs, hab, joinOne, if_neg h5, if_pos hc1, joinOne, if_neg hs,
        if_pos (Or.inr (by rw [hg, hbl])), List.append_assoc]
    · have hab : joinOne a b = a ++ '/' :: b := by rw [joinOne, if_neg hbh, if_neg hc1]
      rw [hbs, hab, joinOne, if_neg h5, if_neg hc1, joinOne, if_neg hs,
        if_pos (Or.inr (by rw [hg2, hbl]))]
      simp
  · push_neg at hc2
    have hbl : b.getLast? ≠ some '/' := hc2.2
    have hbs : joinOne b s = b ++ '/' :: s := by
      rw [joinOne, if_neg hs, if_neg (by push_neg; exact hc2)]
    by_cases hc1 : a = [] ∨ a.getLast? = some '/'
    · have hab : joinOne a b = a ++ b := by rw [joinOne, if_neg hbh, if_pos hc1]
      rw [hbs, hab, joinOne, if_neg h6, if_pos hc1, joinOne, if_neg hs, if_neg (by
        intro h
        rcases h with h | h
        · exact hb (List.append_eq_nil.mp h).2
        · rw [hg] at h
          exact hbl h)]
      rw [List.append_assoc]
    · have hab : joinOne a b = a ++ '/' :: b := by rw [joinOne, if_neg hbh, if_neg hc1]
      rw [hbs, hab, joinOne, if_neg h6, if_neg hc1, joinOne, if_neg hs, if_neg (by
        intro h
        rcases h with h | h
        · exact absurd (List.append_eq_nil.mp h).2 (by simp)
        · rw [hg2] at h
          exact hbl h)]
      simp

/-! ## The core confinement computation -/

theorem foldl_splitSlash_joinOne {J s : LC} (hJ : J.head? = some '/')
    (hs : s.head? ≠ some '/') :
    List.foldl (normStep true) [] (splitSlash (joinOne J s)) =
      List.foldl (normStep true) (List.foldl (normStep true) [] (splitSlash J))
        (splitSlash s) := by
  have hJne : J ≠ [] := fun h => by rw [h] at hJ; cases hJ
  rw [joinOne, if_neg hs]
  by_cases hlast : J = [] ∨ J.getLast? = some '/'
  · rw [if_pos hlast]
    have hlast' : J.getLast? = some '/' := by
      rcases hlast with h | h
      · exact absurd h hJne
      · exact h
    have hJd : J.dropLast ++ ['/'] = J := by
      have h1 := List.dropLast_append_getLast hJne
      have h2 : J.getLast hJne = '/' := by
        have h3 := List.getLast?_eq_getLast J hJne
        rw [hlast'] at h3
        exact (Option.some.inj h3).symm
      rw [h2] at h1
      exact h1
    have hsplit1 : splitSlash (J ++ s) = splitSlash J.dropLast ++ splitSlash s := by
      conv_lhs => rw [← hJd]
      rw [List.append_assoc, List.singleton_append, splitSlash_append]
    have hsplit2 : splitSlash J = splitSlash J.dropLast ++ [[]] := by
      conv_lhs => rw [← hJd]
      have : (['/'] : LC) = '/' :: [] := rfl
      rw [this, splitSlash_append]
      rfl
    rw [hsplit1, hsplit2, List.foldl_append, List.foldl_append]
    simp [normStep_nil]
  · rw [if_neg hlast]
    rw [splitSlash_append, List.foldl_append]

theorem normpath_abs {p : LC} (h : p.head? = some '/') :
    normpath p = slashPre p ++ intercSlash (normComps (splitSlash p) true) := by
  have hd : decide (p.head? = some '/') = true := decide_eq_true h
  simp only [normpath, hd]
  rw [if_neg (fun hx => slashPre_ne_nil h (List.append_eq_nil.mp hx).1)]

theorem normpath_joinOne {J s : LC} (hJ : J.head? = some '/') (hs : s.head? ≠ some '/')
    (hdd : ∀ seg ∈ splitSlash s, seg ≠ ['.', '.']) :
    normpath (joinOne J s) =
      (if (splitSlash s).filter goodSeg = [] then normpath J
       else appendUnder (normpath J) (intercSlash ((splitSlash s).filter goodSeg))) := by
  have hJne : J ≠ [] := fun h => by rw [h] at hJ; cases hJ
  have hhead : (joinOne J s).head? = some '/' := by rw [joinOne_head hJne hs, hJ]
  have hfold := foldl_splitSlash_joinOne hJ hs
  have hfold2 := foldl_normStep_no_dd true hdd
    (List.foldl (normStep true) [] (splitSlash J))
  have hcompsJoined : normComps (splitSlash (joinOne J s)) true =
      (List.foldl (normStep true) [] (splitSlash J)).reverse ++
        (splitSlash s).filter goodSeg := by
    rw [normComps, hfold, hfold2, List.reverse_append, List.reverse_reverse]
  have hclean : ∀ x ∈ (List.foldl (normStep true) [] (splitSlash J)).reverse,
      CleanSeg x := by
    intro x hx
    exact foldl_normStep_clean (fun c hc => splitSlash_noslash hc) []
      (by intro z hz; cases hz) x (List.mem_reverse.mp hx)
  rw [normpath_abs hhead, normpath_abs hJ, hcompsJoined, slashPre_joinOne hJ hs]
  by_cases hSnil : (splitSlash s).filter goodSeg = []
  · rw [if_pos hSnil, hSnil, List.append_nil]
    rfl
  · rw [if_neg hSnil]
    rcases hB : (List.foldl (normStep true) [] (splitSlash J)).reverse with _ | ⟨b, B'⟩
    · rw [show normComps (splitSlash J) true =
          (List.foldl (normStep true) [] (splitSlash J)).reverse from rfl, hB]
      rw [List.nil_append]
      rw [appendUnder]
      have : ((slashPre J ++ intercSlash ([] : List LC))).getLast? = some '/' := by
        rw [show intercSlash ([] : List LC) = [] from rfl, List.append_nil]
        exact slashPre_last hJ
      rw [if_pos this, show intercSlash ([] : List LC) = [] from rfl, List.append_nil]
    · rw [show normComps (splitSlash J) true =
          (List.foldl (normStep true) [] (splitSlash J)).reverse from rfl, hB]
      have hBne : (b :: B' : List LC) ≠ [] := by simp
      have hBclean : ∀ x ∈ (b :: B' : List LC), CleanSeg x := by
        rw [← hB]
        exact hclean
      rw [intercSlash_append hBne hSnil]
      have hIne : intercSlash (b :: B') ≠ [] :=
        intercSlash_ne_nil hBne (fun d hd => (hBclean d hd).1)
      obtain ⟨c, hc1, hc2⟩ := intercSlash_last hBne
        (fun d hd => ⟨(hBclean d hd).1, (hBclean d hd).2.2.2⟩)
      rw [appendUnder, if_neg (by
        rw [lastQ_append _ hIne, hc1]
        intro h
        exact hc2 (Option.some.inj h))]
      rw [List.append_assoc]

theorem abspath_joinOne {cwd base s : LC} (hc : cwd.head? = some '/') (hb : base ≠ [])
    (hs : s.head? ≠ some '/') (hdd : ∀ seg ∈ splitSlash s, seg ≠ ['.', '.']) :
    abspath cwd (joinOne base s) =
      (if (splitSlash s).filter goodSeg = [] then abspath cwd base
       else appendUnder (abspath cwd base) (intercSlash ((splitSlash s).filter goodSeg))) := by
  have hcne : cwd ≠ [] := fun h => by rw [h] at hc; cases hc
  by_cases hbh : base.head? = some '/'
  · have hjh : (joinOne base s).head? = some '/' := by rw [joinOne_head hb hs, hbh]
    rw [abspath, if_pos hjh, abspath, if_pos hbh]
    exact normpath_joinOne hbh hs hdd
  · have hjh : (joinOne base s).head? ≠ some '/' := by
      rw [joinOne_head hb hs]
      exact hbh
    rw [abspath, if_neg hjh, abspath, if_neg hbh, joinOne_assoc hb hbh hs]
    have hJh : (joinOne cwd base).head? = some '/' := by
      rw [joinOne_head hcne hbh, hc]
    exact normpath_joinOne hJh hs hdd

/-! ## `appendUnder`, `ProperDesc` and `descB` -/

theorem appendUnder_pos {r : LC} (t : LC) (h : r.getLast? = some '/') :
    appendUnder r t = r ++ t := by
  rw [appendUnder, if_pos h]

theorem appendUnder_neg {r : LC} (t : LC) (h : r.getLast? ≠ some '/') :
    appendUnder r t = r ++ '/' :: t := by
  rw [appendUnder, if_neg h]

theorem appendUnder_ne_nil (r : LC) {t : LC} (ht : t ≠ []) : appendUnder r t ≠ [] := by
  rw [appendUnder]
  split
  · intro h
    exact ht (List.append_eq_nil.mp h).2
  · intro h
    cases (List.append_eq_nil.mp h).2

theorem appendUnder_assoc {a : LC} (r b : LC) (ha : a ≠ []) :
    appendUnder (appendUnder r a) b = appendUnder r (appendUnder a b) := by
  have hlast : (appendUnder r a).getLast? = a.getLast? := by
    by_cases hgr : r.getLast? = some '/'
    · rw [appendUnder_pos a hgr]
      exact lastQ_append r ha
    · rw [appendUnder_neg a hgr, lastQ_append r (by simp)]
      cases a with
      | nil => exact absurd rfl ha
      | cons x xs => rw [List.getLast?_cons_cons]
  by_cases hga : a.getLast? = some '/'
  · rw [appendUnder_pos b (by rw [hlast]; exact hga), appendUnder_pos b hga]
    by_cases hgr : r.getLast? = some '/'
    · rw [appendUnder_pos a hgr, appendUnder_pos (a ++ b) hgr, List.append_assoc]
    · rw [appendUnder_neg a hgr, appendUnder_neg (a ++ b) hgr]
      simp
  · rw [appendUnder_neg b (by rw [hlast]; exact hga), appendUnder_neg b hga]
    by_cases hgr : r.getLast? = some '/'
    · rw [appendUnder_pos a hgr, appendUnder_pos (a ++ '/' :: b) hgr, List.append_assoc]
    · rw [appendUnder_neg a hgr, appendUnder_neg (a ++ '/' :: b) hgr]
      simp

theorem ProperDesc_trans_DescEq {p q r : LC} (h1 : ProperDesc p q) (h2 : DescEq q r) :
    ProperDesc p r := by
  obtain ⟨t, ht, rfl⟩ := h1
  rcases h2 with rfl | ⟨u, hu, rfl⟩
  · exact ⟨t, ht, rfl⟩
  · exact ⟨appendUnder u t, appendUnder_ne_nil u ht, appendUnder_assoc r t hu⟩

theorem startsWithL_appendUnder (r t : LC) : startsWithL (appendUnder r t) r = true := by
  rw [appendUnder]
  split
  · exact startsWithL_append r t
  · exact startsWithL_append r _

theorem descB_of_DescEq {p r : LC} (h : DescEq p r) : descB p r = true := by
  rcases h with rfl | ⟨t, ht, rfl⟩
  · rw [descB, if_pos rfl]
  · rw [descB]
    by_cases he : appendUnder r t = r
    · rw [if_pos he]
    · rw [if_neg he]
      by_cases hg : r.getLast? = some '/'
      · rw [if_pos hg, appendUnder_pos t hg]
        exact startsWithL_append r t
      · rw [if_neg hg, appendUnder_neg t hg]
        have h2 : r ++ '/' :: t = (r ++ ['/']) ++ t := by simp
        rw [h2]
        exact startsWithL_append _ t

/-! ## The `validate_path` workhorse -/

theorem validate_path_spec {cwd base user : LC} (hc : cwd.head? = some '/')
    (hb : base ≠ []) (hu : user ≠ []) :
    ∃ r, validate_path cwd base user = .ok r ∧ DescEq r (abspath cwd base) := by
  have hsan : hasDD (stripSlashes (collapseSlash (stripDotDot user))) = false :=
    hasDD_stripSlashes (hasDD_collapseSlash (hasDD_stripDotDot user))
  have hshead : (stripSlashes (collapseSlash (stripDotDot user))).head? ≠ some '/' := by
    intro h
    exact stripSlashes_head h rfl
  have hdd : ∀ seg ∈ splitSlash (stripSlashes (collapseSlash (stripDotDot user))),
      seg ≠ ['.', '.'] := fun seg hs => splitSlash_no_dd hsan hs
  have habs := abspath_joinOne hc hb hshead hdd
  have hval : validate_path cwd base user =
      (if startsWithL
          (abspath cwd (joinOne base (stripSlashes (collapseSlash (stripDotDot user)))))
          (abspath cwd base) = true
       then Except.ok
          (abspath cwd (joinOne base (stripSlashes (collapseSlash (stripDotDot user)))))
       else Except.error ()) := by
    unfold validate_path
    rw [if_neg hu]
  by_cases hS : (splitSlash (stripSlashes (collapseSlash (stripDotDot user)))).filter
      goodSeg = []
  · rw [if_pos hS] at habs
    refine ⟨abspath cwd base, ?_, Or.inl rfl⟩
    rw [hval, habs, if_pos (startsWithL_self _)]
  · rw [if_neg hS] at habs
    have htne : intercSlash ((splitSlash (stripSlashes (collapseSlash
        (stripDotDot user)))).filter goodSeg) ≠ [] := by
      refine intercSlash_ne_nil hS ?_
      intro c hcmem
      have h2 := (List.mem_filter.mp hcmem).2
      simp only [goodSeg, decide_eq_true_eq] at h2
      exact h2.1
    refine ⟨_, ?_, Or.inr ⟨_, htne, habs⟩⟩
    rw [hval, habs, if_pos (startsWithL_appendUnder _ _)]

/-! ## Idempotence of canonicalisation -/

theorem splitSlash_intercSlash {S : List LC} (hS : S ≠ [])
    (h : ∀ c ∈ S, '/' ∉ c) : splitSlash (intercSlash S) = S := by
  induction S with
  | nil => exact absurd rfl hS
  | cons s rest ih =>
    cases rest with
    | nil =>
      simp only [intercSlash]
      exact splitSlash_sf (h s (List.mem_cons_self _ _))
    | cons s2 r2 =>
      rw [intercSlash_cons s (by simp), splitSlash_append,
        splitSlash_sf (h s (List.mem_cons_self _ _)),
        ih (by simp) (fun d hd => h d (List.mem_cons_of_mem _ hd))]
      rfl

theorem normpath_pre_interc {pre : LC} (C : List LC)
    (hpre : pre = ['/'] ∨ pre = ['/', '/'])
    (hclean : ∀ x ∈ C, CleanSeg x) :
    normpath (pre ++ intercSlash C) = pre ++ intercSlash C := by
  cases C with
  | nil => rcases hpre with h | h <;> rw [h] <;> decide
  | cons c0 C' =>
    have hc0 := hclean c0 (List.mem_cons_self _ _)
    rcases hc0a : c0 with _ | ⟨a, c0t⟩
    · exact absurd rfl (hc0a ▸ hc0.1)
    · rw [← hc0a]
      have hc0ne : c0 ≠ [] := hc0.1
      have hXhead : (intercSlash (c0 :: C')).head? = some a := by
        rw [intercSlash_head c0 C' hc0ne, hc0a]
        rfl
      have ha : a ≠ '/' := by
        intro h
        exact hc0.2.2.2 (by rw [hc0a, h]; exact List.mem_cons_self _ _)
      have hXsf : ∀ c ∈ (c0 :: C' : List LC), '/' ∉ c :=
        fun c hcm => (hclean c hcm).2.2.2
      have hXs : splitSlash (intercSlash (c0 :: C')) = c0 :: C' :=
        splitSlash_intercSlash (by simp) hXsf
      have hnodd : ∀ c ∈ (c0 :: C' : List LC), c ≠ ['.', '.'] :=
        fun c hcm => (hclean c hcm).2.2.1
      have hfilter : (c0 :: C' : List LC).filter goodSeg = c0 :: C' := by
        refine List.filter_eq_self.mpr ?_
        intro c hcm
        have := hclean c hcm
        simp only [goodSeg, decide_eq_true_eq]
        exact ⟨this.1, this.2.1⟩
      have hcomps : normComps (splitSlash (pre ++ intercSlash (c0 :: C'))) true
          = c0 :: C' := by
        rcases hpre with h | h
        · rw [h, List.singleton_append, splitSlash_cons_slash, hXs, normComps,
            List.foldl_cons, normStep_nil, foldl_normStep_no_dd true hnodd, hfilter]
          simp
        · rw [h, show (['/', '/'] : LC) ++ intercSlash (c0 :: C') =
              '/' :: '/' :: intercSlash (c0 :: C') from rfl,
            splitSlash_cons_slash, splitSlash_cons_slash, hXs, normComps,
            List.foldl_cons, List.foldl_cons, normStep_nil, normStep_nil,
            foldl_normStep_no_dd true hnodd, hfilter]
          simp
      have hphead : (pre ++ intercSlash (c0 :: C')).head? = some '/' := by
        rcases hpre with h | h <;> rw [h] <;> rfl
      have hpreq : slashPre (pre ++ intercSlash (c0 :: C')) = pre := by
        rcases hpre with h | h
        · rw [h, List.singleton_append]
          simp [slashPre, hXhead, ha]
        · rw [h, show (['/', '/'] : LC) ++ intercSlash (c0 :: C') =
              '/' :: '/' :: intercSlash (c0 :: C') from rfl]
          simp [slashPre, hXhead, ha]
      rw [normpath_abs hphead, hcomps, hpreq]

theorem normpath_idem {p : LC} (h : p.head? = some '/') :
    normpath (normpath p) = normpath p := by
  rw [normpath_abs h]
  refine normpath_pre_interc _ ?_ ?_
  · rcases slashPre_cases p with h1 | h1 | h1
    · exact absurd h1 (slashPre_ne_nil h)
    · exact Or.inl h1
    · exact Or.inr h1
  · intro x hx
    simp only [normComps] at hx
    exact foldl_normStep_clean (fun c hc => splitSlash_noslash hc) []
      (by intro z hz; cases hz) x (List.mem_reverse.mp hx)

theorem abspath_head {cwd p : LC} (hc : cwd.head? = some '/') :
    (abspath cwd p).head? = some '/' := by
  have key : ∀ q : LC, q.head? = some '/' → (normpath q).head? = some '/' := by
    intro q hq
    rw [normpath_abs hq, headQ_append _ (slashPre_ne_nil hq)]
    exact slashPre_head hq
  rw [abspath]
  by_cases hp : p.head? = some '/'
  · rw [if_pos hp]
    exact key p hp
  · rw [if_neg hp]
    refine key _ ?_
    rw [joinOne_head (fun h => by rw [h] at hc; cases hc) hp]
    exact hc

theorem abspath_idem {cwd p : LC} (hc : cwd.head? = some '/') :
    normpath (abspath cwd p) = abspath cwd p := by
  rw [abspath]
  by_cases hp : p.head? = some '/'
  · rw [if_pos hp]
    exact normpath_idem hp
  · rw [if_neg hp]
    refine normpath_idem ?_
    rw [joinOne_head (fun h => by rw [h] at hc; cases hc) hp]
    exact hc

theorem abspath_join_desc {cwd base s : LC} (hc : cwd.head? = some '/') (hb : base ≠ [])
    (hs : s.head? ≠ some '/') (hdd : ∀ seg ∈ splitSlash s, seg ≠ ['.', '.']) :
    DescEq (abspath cwd (joinOne base s)) (abspath cwd base) := by
  have habs := abspath_joinOne hc hb hs hdd
  by_cases hS : (splitSlash s).filter goodSeg = []
  · rw [if_pos hS] at habs
    exact Or.inl habs
  · rw [if_neg hS] at habs
    refine Or.inr ⟨_, ?_, habs⟩
    refine intercSlash_ne_nil hS ?_
    intro c hcmem
    have h2 := (List.mem_filter.mp hcmem).2
    simp only [goodSeg, decide_eq_true_eq] at h2
    exact h2.1

theorem validate_path_ok_eq {cwd base user : LC} (hc : cwd.head? = some '/')
    (hb : base ≠ []) (hu : user ≠ []) :
    validate_path cwd base user =
      .ok (abspath cwd (joinOne base (stripSlashes (collapseSlash (stripDotDot user))))) := by
  have hsan : hasDD (stripSlashes (collapseSlash (stripDotDot user))) = false :=
    hasDD_stripSlashes (hasDD_collapseSlash (hasDD_stripDotDot user))
  have hshead : (stripSlashes (collapseSlash (stripDotDot user))).head? ≠ some '/' := by
    intro h
    exact stripSlashes_head h rfl
  have hdd : ∀ seg ∈ splitSlash (stripSlashes (collapseSlash (stripDotDot user))),
      seg ≠ ['.', '.'] := fun seg hs => splitSlash_no_dd hsan hs
  have hval : validate_path cwd base user =
      (if startsWithL
          (abspath cwd (joinOne base (stripSlashes (collapseSlash (stripDotDot user)))))
          (abspath cwd base) = true
       then Except.ok
          (abspath cwd (joinOne base (stripSlashes (collapseSlash (stripDotDot user)))))
       else Except.error ()) := by
    unfold validate_path
    rw [if_neg hu]
  rw [hval]
  rcases abspath_join_desc hc hb hshead hdd with heq | ⟨t, ht, heq⟩
  · rw [heq, if_pos (startsWithL_self _), ← heq]
  · rw [heq, if_pos (startsWithL_appendUnder _ _), ← heq]

theorem validate_path_ok_props {cwd base user r : LC} (hc : cwd.head? = some '/')
    (hb : base ≠ []) (hu : user ≠ [])
    (h : validate_path cwd base user = .ok r) :
    r.head? = some '/' ∧ normpath r = r ∧ DescEq r (abspath cwd base) := by
  rw [validate_path_ok_eq hc hb hu] at h
  have hr := (Except.ok.inj h).symm
  subst hr
  have hsan : hasDD (stripSlashes (collapseSlash (stripDotDot user))) = false :=
    hasDD_stripSlashes (hasDD_collapseSlash (hasDD_stripDotDot user))
  refine ⟨abspath_head hc, abspath_idem hc, ?_⟩
  refine abspath_join_desc hc hb ?_ ?_
  · intro hx
    exact stripSlashes_head hx rfl
  · exact fun seg hs => splitSlash_no_dd hsan hs

theorem joinOne_last {a b : LC} (hb : b ≠ []) (hbh : b.head? ≠ some '/') :
    (joinOne a b).getLast? = b.getLast? := by
  rw [joinOne, if_neg hbh]
  split
  · exact lastQ_append a hb
  · rw [lastQ_append a (by simp)]
    cases b with
    | nil => exact absurd rfl hb
    | cons x xs => rw [List.getLast?_cons_cons]

theorem lastQ_cons_slash {b : LC} (hb : b ≠ []) :
    ('/' :: b : LC).getLast? = b.getLast? := by
  cases b with
  | nil => exact absurd rfl hb
  | cons x xs => rw [List.getLast?_cons_cons]

theorem head_ne_slash {name : LC} (h1 : name ≠ []) (h2 : '/' ∉ name) :
    name.head? ≠ some '/' := by
  cases name with
  | nil => exact absurd rfl h1
  | cons a l =>
    intro h
    have : a = '/' := by simpa using h
    exact h2 (by rw [this]; exact List.mem_cons_self _ _)

/-! ## Claim theorems -/

/-- Claim C1: for every working directory, every nonempty root directory
path and every nonempty `userPath` (in particular every one containing
`..`, `//` or encoded variants), `validate_path` returns a
canonicalised absolute path that is the root's canonical form or a
proper descendant of it under the separator-boundary comparison — it
never resolves outside the root (in fact the `AccessDenied` branch is
never even reached, which entails the claimed disjunction). -/
theorem C1_validate_path_confinement (cwd base user : LC)
    (hc : cwd.head? = some '/') (hb : base ≠ []) (hu : user ≠ []) :
    ∃ r, validate_path cwd base user = .ok r ∧ DescEq r (abspath cwd base) :=
  validate_path_spec hc hb hu

/-- Witness for C1 at a concrete traversal payload. -/
theorem C1_validate_path_confinement_witness :
    (("/srv".data : LC).head? = some '/' ∧ ("/data/user1".data : LC) ≠ [] ∧
      ("../..//etc/passwd".data : LC) ≠ []) ∧
    ∃ r, validate_path "/srv".data "/data/user1".data "../..//etc/passwd".data = .ok r ∧
      DescEq r (abspath "/srv".data "/data/user1".data) :=
  ⟨⟨by decide, by decide, by decide⟩,
    C1_validate_path_confinement _ _ _ (by decide) (by decide) (by decide)⟩

/-- Counterexample to claim C2: `create_folder` validates only the
parent path; the folder `name` is joined unvalidated, so the
caller-supplied name `/tmp/evil` makes `create_folder` hand
`os.makedirs` a directory outside the user's storage root. -/
theorem C2_create_folder_escape_cex :
    create_folder "/srv".data "u1".data [] "/tmp/evil".data (fun _ => false) =
      .ok "/tmp/evil".data ∧
    ¬ DescEq (abspath "/srv".data "/tmp/evil".data)
        (abspath "/srv".data (get_user_directory "/srv".data "u1".data)) := by
  refine ⟨by decide, ?_⟩
  intro h
  exact absurd (descB_of_DescEq h) (by decide)

/-- Claim C2 (amended): `create_folder` invokes PathGuard on the parent
path only; restricted to folder names that are nonempty, contain no
separator and are neither `.` nor `..`, every successful call yields a
directory strictly inside the caller's storage root (and otherwise it
fails with `AccessDenied` or `AlreadyExists`). -/
theorem C2_create_folder_confined (cwd uid path name : LC) (ex : LC → Bool)
    (hc : cwd.head? = some '/') (hn1 : name ≠ []) (hn2 : '/' ∉ name)
    (hn3 : name ≠ ['.']) (hn4 : name ≠ ['.', '.']) :
    ∀ p, create_folder cwd uid path name ex = .ok p →
      ProperDesc (abspath cwd p) (abspath cwd (get_user_directory cwd uid)) := by
  intro p hp
  have hbase : get_user_directory cwd uid ≠ [] :=
    joinOne_ne_nil uid (joinOne_ne_nil2 (by decide))
  have hnh : name.head? ≠ some '/' := head_ne_slash hn1 hn2
  have hdd : ∀ seg ∈ splitSlash name, seg ≠ ['.', '.'] := by
    rw [splitSlash_sf hn2]
    intro seg hs
    rcases List.mem_singleton.mp hs with rfl
    exact hn4
  have hfilter : (splitSlash name).filter goodSeg = [name] := by
    rw [splitSlash_sf hn2]
    rw [List.filter_cons]
    rw [show goodSeg name = true from by
      simp only [goodSeg, decide_eq_true_eq]
      exact ⟨hn1, hn3⟩]
    rfl
  rcases hv : validate_path cwd (get_user_directory cwd uid) path with e | parent
  · rw [create_folder.eq_def, hv] at hp
    cases hp
  · rw [create_folder.eq_def, hv] at hp
    by_cases hex : ex (joinOne parent name)
    · simp only [hex, if_true] at hp
      cases hp
    · simp only [hex, if_false, Bool.false_eq_true] at hp
      have hpj : p = joinOne parent name := (Except.ok.inj hp).symm
      subst hpj
      by_cases hpath : path = []
      · have hparent : parent = get_user_directory cwd uid := by
          rw [validate_path, if_pos hpath] at hv
          exact (Except.ok.inj hv).symm
        subst hparent
        have habs := abspath_joinOne hc hbase hnh hdd
        rw [hfilter] at habs
        rw [if_neg (by simp)] at habs
        exact ⟨name, hn1, by rw [habs]; rfl⟩
      · obtain ⟨hhead, hidem, hdesc⟩ := validate_path_ok_props hc hbase hpath hv
        have hpne : parent ≠ [] := fun h => by rw [h] at hhead; cases hhead
        have hjh : (joinOne parent name).head? = some '/' := by
          rw [joinOne_head hpne hnh, hhead]
        have hnp := normpath_joinOne hhead hnh hdd
        rw [hfilter, if_neg (by simp), hidem] at hnp
        have habs2 : abspath cwd (joinOne parent name) =
            appendUnder parent (intercSlash [name]) := by
          rw [abspath, if_pos hjh, hnp]
        refine ProperDesc_trans_DescEq ⟨name, hn1, ?_⟩ hdesc
        rw [habs2]
        rfl

/-- Witness for the amended C2 on a benign folder name. -/
theorem C2_create_folder_confined_witness :
    (("/srv".data : LC).head? = some '/' ∧ ("reports".data : LC) ≠ [] ∧
      '/' ∉ ("reports".data : LC) ∧ ("reports".data : LC) ≠ ['.'] ∧
      ("reports".data : LC) ≠ ['.', '.'] ∧
      create_folder "/srv".data "u1".data "docs".data "reports".data (fun _ => false) =
        .ok "/srv/uploads/u1/docs/reports".data) ∧
    ProperDesc (abspath "/srv".data "/srv/uploads/u1/docs/reports".data)
      (abspath "/srv".data (get_user_directory "/srv".data "u1".data)) :=
  ⟨⟨by decide, by decide, by decide, by decide, by decide, by decide⟩,
    C2_create_folder_confined "/srv".data "u1".data "docs".data "reports".data
      (fun _ => false) (by decide) (by decide) (by decide) (by decide) (by decide)
      "/srv/uploads/u1/docs/reports".data (by decide)⟩

/-- Counterexample to claim C3: `get_user_directory` applies no
sanitisation to the identity id, so the distinct ids `u` and `u/v`
yield storage roots where one is an ancestor of the other under the
separator-boundary comparison. -/
theorem C3_user_directory_overlap_cex :
    ("u".data : LC) ≠ "u/v".data ∧
    ProperDesc (get_user_directory "/srv".data "u/v".data)
      (get_user_directory "/srv".data "u".data) :=
  ⟨by decide, ⟨"v".data, by decide, by decide⟩⟩

theorem appendUnder_last {t : LC} (r : LC) (ht : t ≠ []) :
    (appendUnder r t).getLast? = t.getLast? := by
  by_cases hgr : r.getLast? = some '/'
  · rw [appendUnder_pos t hgr]
    exact lastQ_append r ht
  · rw [appendUnder_neg t hgr, lastQ_append r (by simp), lastQ_cons_slash ht]

/-- Claim C3 (amended): `get_user_directory` performs no sanitisation
of the identity id; restricted to ids that are nonempty, contain no
separator and are neither `.` nor `..` (the alphanumeric-safe ids of
the claim), two distinct ids map to canonically distinct storage roots
— comparing the `abspath`-canonicalised directories — neither an
ancestor of the other, and each root lies strictly under the canonical
`uploads` base directory. -/
theorem C3_user_directory_separation (cwd uid1 uid2 : LC)
    (hc : cwd.head? = some '/')
    (h1 : uid1 ≠ []) (h2 : uid2 ≠ []) (hs1 : '/' ∉ uid1) (hs2 : '/' ∉ uid2)
    (hd1 : uid1 ≠ ['.']) (hd2 : uid1 ≠ ['.', '.'])
    (hd3 : uid2 ≠ ['.']) (hd4 : uid2 ≠ ['.', '.'])
    (hne : uid1 ≠ uid2) :
    abspath cwd (get_user_directory cwd uid1) ≠
      abspath cwd (get_user_directory cwd uid2) ∧
    ¬ ProperDesc (abspath cwd (get_user_directory cwd uid1))
      (abspath cwd (get_user_directory cwd uid2)) ∧
    ¬ ProperDesc (abspath cwd (get_user_directory cwd uid2))
      (abspath cwd (get_user_directory cwd uid1)) ∧
    ProperDesc (abspath cwd (get_user_directory cwd uid1))
      (abspath cwd (joinOne cwd "uploads".data)) := by
  have hcne : cwd ≠ [] := fun h => by rw [h] at hc; cases hc
  have hAeq : abspath cwd (joinOne cwd "uploads".data) =
      appendUnder (abspath cwd cwd) "uploads".data := by
    have habs := abspath_joinOne hc hcne
      (show ("uploads".data : LC).head? ≠ some '/' by decide)
      (show ∀ seg ∈ splitSlash ("uploads".data : LC), seg ≠ ['.', '.'] by decide)
    rw [show (splitSlash ("uploads".data : LC)).filter goodSeg = ["uploads".data]
      by decide] at habs
    rw [if_neg (by simp)] at habs
    exact habs
  have hAlast : (abspath cwd (joinOne cwd "uploads".data)).getLast? ≠ some '/' := by
    rw [hAeq, appendUnder_last _ (show ("uploads".data : LC) ≠ [] by decide)]
    decide
  have hded : ∀ uid : LC, uid ≠ [] → '/' ∉ uid → uid ≠ ['.'] → uid ≠ ['.', '.'] →
      abspath cwd (get_user_directory cwd uid) =
        appendUnder (abspath cwd (joinOne cwd "uploads".data)) uid := by
    intro uid hu hsu hdu hddu
    have hBne : joinOne cwd "uploads".data ≠ [] := joinOne_ne_nil2 (by decide)
    have habs := abspath_joinOne hc hBne (head_ne_slash hu hsu)
      (by
        rw [splitSlash_sf hsu]
        intro seg hs
        rcases List.mem_singleton.mp hs with rfl
        exact hddu)
    rw [splitSlash_sf hsu] at habs
    have hfil : ([uid] : List LC).filter goodSeg = [uid] := by
      simp [goodSeg, hu, hdu]
    rw [hfil, if_neg (by simp)] at habs
    exact habs
  have hlastD : ∀ uid : LC, uid ≠ [] → '/' ∉ uid →
      (appendUnder (abspath cwd (joinOne cwd "uploads".data)) uid).getLast? ≠
        some '/' := by
    intro uid hu hsu h
    rw [appendUnder_last _ hu] at h
    exact hsu (lastQ_mem h)
  have hover : ∀ uida uidb : LC, uida ≠ [] → uidb ≠ [] → '/' ∉ uida → '/' ∉ uidb →
      ¬ ProperDesc (appendUnder (abspath cwd (joinOne cwd "uploads".data)) uida)
        (appendUnder (abspath cwd (joinOne cwd "uploads".data)) uidb) := by
    intro uida uidb ha hb hsa hsb
    rintro ⟨t, ht, heq⟩
    rw [appendUnder_neg t (hlastD uidb hb hsb), appendUnder_neg uida hAlast,
      appendUnder_neg uidb hAlast, List.append_assoc] at heq
    have h3 : ('/' :: uida : LC) = '/' :: uidb ++ '/' :: t :=
      List.append_cancel_left heq
    rw [List.cons_append] at h3
    have h4 : uida = uidb ++ '/' :: t := (List.cons.inj h3).2
    exact hsa (by rw [h4]; exact List.mem_append.mpr (Or.inr (List.mem_cons_self _ _)))
  rw [hded uid1 h1 hs1 hd1 hd2, hded uid2 h2 hs2 hd3 hd4]
  refine ⟨?_, hover uid1 uid2 h1 h2 hs1 hs2, hover uid2 uid1 h2 h1 hs2 hs1, ?_⟩
  · intro heq
    rw [appendUnder_neg uid1 hAlast, appendUnder_neg uid2 hAlast] at heq
    have h3 := List.append_cancel_left heq
    exact hne (List.cons.inj h3).2
  · exact ⟨uid1, h1, rfl⟩

/-! ## Lemmas about token payload dictionaries -/

theorem lookupD_map_update {d : Payload} {k : LC} (v : JVal)
    (h : (lookupD d k).isSome) :
    lookupD (d.map (fun p => if p.1 = k then (k, v) else p)) k = some v := by
  induction d with
  | nil => cases h
  | cons p rest ih =>
    rcases p with ⟨k', v'⟩
    by_cases hk : k' = k
    · subst hk
      rw [List.map_cons,
        show (if (k', v').1 = k' then (k', v) else (k', v')) = (k', v) from by
          rw [if_pos (show (k', v').1 = k' from rfl)],
        lookupD, if_pos rfl]
    · rw [lookupD, if_neg hk] at h
      rw [List.map_cons]
      rw [show (if (k', v').1 = k then (k, v) else (k', v')) = (k', v') from by
        rw [if_neg hk]]
      rw [lookupD, if_neg hk]
      exact ih h

theorem lookupD_append_right {d : Payload} {k : LC} (e : Payload)
    (h : lookupD d k = none) : lookupD (d ++ e) k = lookupD e k := by
  induction d with
  | nil => rfl
  | cons p rest ih =>
    rcases p with ⟨k', v'⟩
    by_cases hk : k' = k
    · rw [lookupD, if_pos hk] at h
      cases h
    · rw [lookupD, if_neg hk] at h
      rw [List.cons_append, lookupD, if_neg hk]
      exact ih h

theorem updateD_of_none {d : Payload} {k : LC} (v : JVal) (h : lookupD d k = none) :
    updateD d k v = d ++ [(k, v)] := by
  rw [updateD, if_neg (by rw [h]; simp)]

theorem lookupD_updateD_self (d : Payload) (k : LC) (v : JVal) :
    lookupD (updateD d k v) k = some v := by
  rw [updateD]
  by_cases h : (lookupD d k).isSome
  · rw [if_pos h]
    exact lookupD_map_update v h
  · rw [if_neg h]
    have hnone : lookupD d k = none := by
      cases hx : lookupD d k
      · rfl
      · rw [hx] at h
        exact absurd rfl h
    rw [lookupD_append_right _ hnone, lookupD, if_pos rfl]

/-- Counterexample to claim C4: the payload of an issued token holds
exactly the caller's claims plus `exp` — no issued-at timestamp is
encoded anywhere (`create_access_token` only adds `{"exp": expire}`). -/
theorem C4_no_issuedAt_cex :
    (create_access_token 5 1000 [(idKey, .str "u7".data)] none).payload =
      [(idKey, .str "u7".data), (expKey, .num 87400)] ∧
    lookupD (create_access_token 5 1000 [(idKey, .str "u7".data)] none).payload
      iatKey = none := ⟨by decide, by decide⟩

/-- Claim C4 (amended): with no caller override, every issued token's
payload is the claim dictionary with exactly the `exp` claim set to the
issuance time plus the fixed 24-hour TTL; no issuedAt claim is
added. -/
theorem C4_token_expiry_only (secret now : Nat) (data : Payload) :
    (create_access_token secret now data none).payload =
      updateD data expKey (.num (now + ACCESS_TOKEN_EXPIRE_HOURS * 3600)) ∧
    lookupD (create_access_token secret now data none).payload expKey =
      some (.num (now + ACCESS_TOKEN_EXPIRE_HOURS * 3600)) :=
  ⟨rfl, lookupD_updateD_self _ _ _⟩

/-- Counterexample to claim C5: verifying a freshly issued token does
not return the original claims unchanged — the returned payload carries
the extra `exp` claim. -/
theorem C5_verify_roundtrip_cex :
    verify_token 3 1000
        (.tok (create_access_token 3 1000 [(idKey, .str "u1".data)] none)) ≠
      some [(idKey, .str "u1".data)] := by
  decide

/-- Claim C5 (amended): for claims not already carrying `exp`,
verifying an issued token before its expiry returns the original claims
with the single `exp` claim appended (the original claims are preserved
verbatim; `exp` is the one extra field). -/
theorem C5_verify_roundtrip_exp (secret now v : Nat) (claims : Payload)
    (hexp : lookupD claims expKey = none)
    (hv : v ≤ now + ACCESS_TOKEN_EXPIRE_HOURS * 3600) :
    verify_token secret v (.tok (create_access_token secret now claims none)) =
      some (claims ++ [(expKey, .num (now + ACCESS_TOKEN_EXPIRE_HOURS * 3600))]) := by
  have hupd : (create_access_token secret now claims none).payload =
      claims ++ [(expKey, .num (now + ACCESS_TOKEN_EXPIRE_HOURS * 3600))] :=
    updateD_of_none _ hexp
  have hlook : lookupD (create_access_token secret now claims none).payload expKey =
      some (.num (now + ACCESS_TOKEN_EXPIRE_HOURS * 3600)) := by
    rw [hupd, lookupD_append_right _ hexp, lookupD, if_pos rfl]
  simp only [verify_token]
  rw [if_pos (show (create_access_token secret now claims none).sig =
      hashD secret (create_access_token secret now claims none).payload from rfl)]
  rw [hlook]
  show (if now + ACCESS_TOKEN_EXPIRE_HOURS * 3600 < v then none
    else some (create_access_token secret now claims none).payload) =
    some (claims ++ [(expKey, .num (now + ACCESS_TOKEN_EXPIRE_HOURS * 3600))])
  rw [if_neg (Nat.not_lt.mpr hv), hupd]

/-- Witness for the amended C5. -/
theorem C5_verify_roundtrip_exp_witness :
    (lookupD [(idKey, JVal.str "u1".data)] expKey = none ∧
      (50 : Nat) ≤ 0 + ACCESS_TOKEN_EXPIRE_HOURS * 3600) ∧
    verify_token 7 50 (.tok (create_access_token 7 0 [(idKey, JVal.str "u1".data)] none)) =
      some ([(idKey, JVal.str "u1".data)] ++
        [(expKey, .num (0 + ACCESS_TOKEN_EXPIRE_HOURS * 3600))]) :=
  ⟨⟨by decide, by decide⟩, C5_verify_roundtrip_exp 7 0 50 _ (by decide) (by decide)⟩

/-- Claim C6: on a malformed token, a signature mismatch, or an expired
`exp` claim, `verify_token` returns `None` (never a raised error), and
`get_current_user` maps all three indistinguishably to the 401
rejection. -/
theorem C6_verify_invalid (secret now : Nat) (w : TokenWire)
    (h : w = .malformed ∨
      (∃ t, w = .tok t ∧ t.sig ≠ hashD secret t.payload) ∨
      (∃ t e, w = .tok t ∧ lookupD t.payload expKey = some (.num e) ∧ e < now)) :
    verify_token secret now w = none ∧ get_current_user secret now w = .error 401 := by
  have hv : verify_token secret now w = none := by
    rcases h with rfl | ⟨t, rfl, hsig⟩ | ⟨t, e, rfl, hexp, hlt⟩
    · rfl
    · simp only [verify_token]
      rw [if_neg hsig]
    · simp only [verify_token]
      by_cases hsig : t.sig = hashD secret t.payload
      · rw [if_pos hsig, hexp]
        simp [hlt]
      · rw [if_neg hsig]
  refine ⟨hv, ?_⟩
  rw [get_current_user.eq_def, hv]

/-- Witness for C6: an expired (and otherwise valid) token. -/
theorem C6_verify_invalid_witness :
    ((TokenWire.tok (create_access_token 1 0 [] none) : TokenWire) = .malformed ∨
      (∃ t, (TokenWire.tok (create_access_token 1 0 [] none) : TokenWire) = .tok t ∧
        t.sig ≠ hashD 1 t.payload) ∨
      (∃ t e, (TokenWire.tok (create_access_token 1 0 [] none) : TokenWire) = .tok t ∧
        lookupD t.payload expKey = some (.num e) ∧ e < 1000000)) ∧
    (verify_token 1 1000000 (.tok (create_access_token 1 0 [] none)) = none ∧
      get_current_user 1 1000000 (.tok (create_access_token 1 0 [] none)) =
        .error 401) :=
  ⟨Or.inr (Or.inr ⟨_, 86400, rfl, by decide, by decide⟩),
    C6_verify_invalid 1 1000000 _ (Or.inr (Or.inr ⟨_, 86400, rfl, by decide, by decide⟩))⟩

/-- Claim C7: upload validation rejects `payload.exe` with
`DisallowedType` regardless of the body, rejects a body of exactly
`MAX_FILE_SIZE + 1` bytes with `TooLarge`, accepts a body of exactly
`MAX_FILE_SIZE` bytes, and `MAX_FILE_SIZE` is 10 MiB. -/
theorem C7_upload_checks (c1 c2 c3 : List Nat)
    (h2 : c2.length = MAX_FILE_SIZE + 1) (h3 : c3.length = MAX_FILE_SIZE) :
    upload_validate "payload.exe".data c1 = .error .disallowedType ∧
    upload_validate "a.txt".data c2 = .error .tooLarge ∧
    upload_validate "a.txt".data c3 = .ok () ∧
    MAX_FILE_SIZE = 10 * 1024 * 1024 := by
  refine ⟨?_, ?_, ?_, rfl⟩
  · rw [upload_validate, if_neg (by decide), if_pos (by decide)]
  · rw [upload_validate, if_neg (by decide), if_neg (by decide),
      if_pos (by rw [h2]; exact Nat.lt_succ_self _)]
  · rw [upload_validate, if_neg (by decide), if_neg (by decide),
      if_neg (by rw [h3]; exact Nat.lt_irrefl _)]

/-- Witness for C7 at concrete bodies of the two boundary sizes. -/
theorem C7_upload_checks_witness :
    ((List.replicate (MAX_FILE_SIZE + 1) (0 : Nat)).length = MAX_FILE_SIZE + 1 ∧
      (List.replicate MAX_FILE_SIZE (0 : Nat)).length = MAX_FILE_SIZE) ∧
    (upload_validate "payload.exe".data [] = .error .disallowedType ∧
      upload_validate "a.txt".data (List.replicate (MAX_FILE_SIZE + 1) (0 : Nat)) =
        .error .tooLarge ∧
      upload_validate "a.txt".data (List.replicate MAX_FILE_SIZE (0 : Nat)) = .ok () ∧
      MAX_FILE_SIZE = 10 * 1024 * 1024) :=
  ⟨⟨List.length_replicate _ _, List.length_replicate _ _⟩,
    C7_upload_checks [] _ _ (List.length_replicate _ _) (List.length_replicate _ _)⟩

/-! ## Lemmas about the listing sort order -/

theorem strLe_total : ∀ a b : LC, strLe a b = true ∨ strLe b a = true
  | [], _ => Or.inl rfl
  | _ :: _, [] => Or.inr rfl
  | a :: as, b :: bs => by
    rw [strLe, strLe]
    rcases Nat.lt_trichotomy a.toNat b.toNat with h | h | h
    · left
      rw [if_pos h]
    · rw [if_neg (by omega), if_neg (by omega), if_neg (by omega), if_neg (by omega)]
      exact strLe_total as bs
    · right
      rw [if_pos h]

theorem strLe_trans : ∀ a b c : LC,
    strLe a b = true → strLe b c = true → strLe a c = true
  | [], _, _, _, _ => rfl
  | _ :: _, [], _, h, _ => by
    rw [strLe] at h
    cases h
  | _ :: _, _ :: _, [], _, h2 => by
    rw [strLe] at h2
    cases h2
  | a :: as, b :: bs, c :: cs, h1, h2 => by
    rw [strLe] at h1 h2 ⊢
    by_cases hab : a.toNat < b.toNat
    · by_cases hbc : b.toNat < c.toNat
      · rw [if_pos (Nat.lt_trans hab hbc)]
      · rw [if_neg hbc] at h2
        by_cases hcb : c.toNat < b.toNat
        · rw [if_pos hcb] at h2
          cases h2
        · rw [if_pos (by omega)]
    · rw [if_neg hab] at h1
      by_cases hba : b.toNat < a.toNat
      · rw [if_pos hba] at h1
        cases h1
      · rw [if_neg hba] at h1
        by_cases hbc : b.toNat < c.toNat
        · rw [if_pos (by omega)]
        · rw [if_neg hbc] at h2
          by_cases hcb : c.toNat < b.toNat
          · rw [if_pos hcb] at h2
            cases h2
          · rw [if_neg hcb] at h2
            rw [if_neg (by omega), if_neg (by omega)]
            exact strLe_trans as bs cs h1 h2

theorem itemLe_total : ∀ a b : FileItem, itemLe a b ∨ itemLe b a := by
  intro a b
  rw [itemLe, itemLe, itemLeB, itemLeB]
  by_cases h : isFileT a = isFileT b
  · rw [if_pos h, if_pos h.symm]
    exact strLe_total _ _
  · rw [if_neg h, if_neg (fun hh => h hh.symm)]
    cases ha : isFileT a <;> cases hb : isFileT b <;> simp_all

theorem itemLe_trans : ∀ a b c : FileItem, itemLe a b → itemLe b c → itemLe a c := by
  intro a b c hab hbc
  rw [itemLe] at hab hbc ⊢
  rw [itemLeB] at hab hbc ⊢
  by_cases h1 : isFileT a = isFileT b <;> by_cases h2 : isFileT b = isFileT c
  · rw [if_pos h1] at hab
    rw [if_pos h2] at hbc
    rw [if_pos (h1.trans h2)]
    exact strLe_trans _ _ _ hab hbc
  · rw [if_pos h1] at hab
    rw [if_neg h2] at hbc
    rw [if_neg (fun h => h2 (h1.symm.trans h)), h1]
    exact hbc
  · rw [if_neg h1] at hab
    rw [if_pos h2] at hbc
    rw [if_neg (fun h => h1 (h.trans h2.symm)), ← h2]
    exact hab
  · rw [if_neg h1] at hab
    rw [if_neg h2] at hbc
    cases ha : isFileT a <;> cases hb : isFileT b <;> cases hc : isFileT c <;> simp_all

theorem claimRel_of_itemLe {a b : FileItem} (hab : itemLe a b) : claimRel a b := by
  rw [itemLe, itemLeB] at hab
  by_cases h : isFileT a = isFileT b
  · rw [if_pos h] at hab
    exact ⟨fun hf => h ▸ hf, fun _ => hab⟩
  · rw [if_neg h] at hab
    have hfa : isFileT a = false ∧ isFileT b = true := by
      cases ha : isFileT a <;> cases hb : isFileT b <;> simp_all
    refine ⟨fun hf => ?_, fun ht => ?_⟩
    · rw [hfa.1] at hf
      cases hf
    · exact absurd (show isFileT a = isFileT b from by rw [isFileT, isFileT, ht]) h

/-- Claim C8: the listing order — the sorted entry list is a
permutation of the input, and pairwise in claim order: no file entry
ever precedes a folder entry, and entries of equal type are in
ascending case-insensitive name order. -/
theorem C8_listing_sorted (items : List FileItem) :
    (sortItems items).Perm items ∧ List.Pairwise claimRel (sortItems items) := by
  haveI htot : IsTotal FileItem itemLe := ⟨itemLe_total⟩
  haveI htrans : IsTrans FileItem itemLe := ⟨itemLe_trans⟩
  refine ⟨List.perm_insertionSort itemLe items, ?_⟩
  have hs := List.sorted_insertionSort itemLe items
  exact List.Pairwise.imp (fun hab => claimRel_of_itemLe hab) hs

/-- Claim C9 (code-bug evidence): the 500 catch-all handlers of
`get_file_tree` and `upload_file` interpolate `str(e)` into the
user-visible detail, and a filesystem `OSError` stringifies with its
`filename` attribute — the resolved absolute path — embedded; at a
concrete `PermissionError` raised for the resolved path, both
user-visible messages contain that absolute path, contradicting the
claim that messages never do. -/
theorem C9_error_detail_leaks_path :
    containsL
      (tree_error_detail ⟨13, "Permission denied".data, "/srv/uploads/u1/secret".data⟩)
      "/srv/uploads/u1/secret".data = true ∧
    containsL
      (upload_error_detail ⟨13, "Permission denied".data, "/srv/uploads/u1/secret".data⟩)
      "/srv/uploads/u1/secret".data = true := ⟨by decide, by decide⟩

/-! ## Lemmas about `makedirs` and the listing model -/

theorem slashPrefixes_pref {p q : LC} (h : q ∈ slashPrefixes p) : ∃ t, p = q ++ t := by
  rw [slashPrefixes] at h
  rcases List.mem_append.mp h with h1 | h1
  · rcases List.mem_filterMap.mp h1 with ⟨i, hi, hif⟩
    by_cases hc : 0 < i ∧ p[i]? = some '/'
    · rw [if_pos hc] at hif
      have hq : q = p.take i := (Option.some.inj hif).symm
      exact ⟨p.drop i, by rw [hq, List.take_append_drop]⟩
    · rw [if_neg hc] at hif
      cases hif
  · rcases List.mem_singleton.mp h1 with rfl
    exact ⟨[], (List.append_nil _).symm⟩

theorem foldl_mkd_mono : ∀ (ps : List LC) (dirs : List (LC × Nat)) {e : LC × Nat},
    e ∈ dirs →
    e ∈ ps.foldl
      (fun acc q => if acc.any (fun x => x.1 = q) then acc else acc ++ [(q, 0)]) dirs := by
  intro ps
  induction ps with
  | nil =>
    intro dirs e h
    exact h
  | cons q ps ih =>
    intro dirs e h
    rw [List.foldl_cons]
    apply ih
    by_cases hc : dirs.any (fun x => x.1 = q) = true
    · rw [if_pos hc]
      exact h
    · rw [if_neg hc]
      exact List.mem_append.mpr (Or.inl h)

theorem foldl_mkd_mem : ∀ (ps : List LC) (dirs : List (LC × Nat)) {e : LC × Nat},
    e ∈ ps.foldl
      (fun acc q => if acc.any (fun x => x.1 = q) then acc else acc ++ [(q, 0)]) dirs →
    e ∈ dirs ∨ e.1 ∈ ps := by
  intro ps
  induction ps with
  | nil =>
    intro dirs e h
    exact Or.inl h
  | cons q ps ih =>
    intro dirs e h
    rw [List.foldl_cons] at h
    rcases ih _ h with h1 | h1
    · by_cases hc : dirs.any (fun x => x.1 = q) = true
      · rw [if_pos hc] at h1
        exact Or.inl h1
      · rw [if_neg hc] at h1
        rcases List.mem_append.mp h1 with h2 | h2
        · exact Or.inl h2
        · rcases List.mem_singleton.mp h2 with rfl
          exact Or.inr (List.mem_cons_self _ _)
    · exact Or.inr (List.mem_cons_of_mem _ h1)

theorem foldl_mkd_creates : ∀ (ps : List LC) (dirs : List (LC × Nat)), ∀ q ∈ ps,
    ∃ mt, (q, mt) ∈ ps.foldl
      (fun acc q => if acc.any (fun x => x.1 = q) then acc else acc ++ [(q, 0)]) dirs := by
  intro ps
  induction ps with
  | nil =>
    intro dirs q h
    cases h
  | cons q0 ps ih =>
    intro dirs q hq
    rw [List.foldl_cons]
    rcases List.mem_cons.mp hq with rfl | hq2
    · by_cases hc : dirs.any (fun x => x.1 = q) = true
      · rw [if_pos hc]
        rcases List.any_eq_true.mp hc with ⟨x, hx, hx2⟩
        have hx1 : x.1 = q := by simpa using hx2
        refine ⟨x.2, foldl_mkd_mono ps _ ?_⟩
        rw [← hx1]
        exact hx
      · rw [if_neg hc]
        exact ⟨0, foldl_mkd_mono ps _
          (List.mem_append.mpr (Or.inr (List.mem_singleton.mpr rfl)))⟩
    · exact ih _ q hq2

theorem childNameOf_none_of_short {d q : LC} (h : q.length ≤ d.length) :
    childNameOf d q = none := by
  rw [childNameOf, if_neg (by
    intro hsw
    have h2 := startsWithL_length hsw
    rw [List.length_append, List.length_singleton] at h2
    omega)]

/-- Claim C10: for every request path that passes PathGuard but whose
resolved directory does not exist on disk (no directory entry at or
below it, no file below it), `get_file_tree` creates the directory with
all its separator-boundary ancestors and returns the empty tree with
the requested `current_path`, instead of failing. -/
theorem C10_tree_creates_missing_dir (cwd uid reqPath full : LC) (w : World)
    (hval : validate_path cwd (get_user_directory cwd uid) reqPath = .ok full)
    (hnodir : ∀ e ∈ w.dirs, e.1 ≠ full ∧ startsWithL e.1 (full ++ ['/']) = false)
    (hnofile : ∀ e ∈ w.files, startsWithL e.1 (full ++ ['/']) = false) :
    (get_file_tree cwd uid reqPath w).2 =
      .ok ⟨[], reqPath⟩ ∧
    (∀ q ∈ slashPrefixes full,
      ∃ mt, (q, mt) ∈ (get_file_tree cwd uid reqPath w).1.dirs) := by
  have hout : get_file_tree cwd uid reqPath w =
      (⟨makedirs w.dirs full, w.files⟩,
        .ok ⟨sortItems (listItems (makedirs w.dirs full) w.files full reqPath),
          reqPath⟩) := by
    rw [get_file_tree.eq_def, hval]
  have hfo : ∀ e ∈ makedirs w.dirs full, childNameOf full e.1 = none := by
    intro e he
    rw [makedirs] at he
    rcases foldl_mkd_mem _ _ he with h1 | h1
    · rw [childNameOf, if_neg (by
        intro hx
        rw [(hnodir e h1).2] at hx
        cases hx)]
    · obtain ⟨t, ht⟩ := slashPrefixes_pref h1
      refine childNameOf_none_of_short ?_
      rw [ht, List.length_append]
      omega
  have hfi : ∀ e ∈ w.files, childNameOf full e.1 = none := by
    intro e he
    rw [childNameOf, if_neg (by
      intro hx
      rw [hnofile e he] at hx
      cases hx)]
  have hlist : listItems (makedirs w.dirs full) w.files full reqPath = [] := by
    rw [listItems,
      List.filterMap_eq_nil_iff.mpr (fun e he => by rw [hfo e he]),
      List.filterMap_eq_nil_iff.mpr (fun e he => by rw [hfi e he])]
    rfl
  rw [hout]
  constructor
  · rw [hlist]
    rfl
  · intro q hq
    exact foldl_mkd_creates _ _ q hq

/-- Witness for C10: listing a not-yet-existing directory of a fresh
user on an empty filesystem. -/
theorem C10_tree_creates_missing_dir_witness :
    (validate_path "/srv".data (get_user_directory "/srv".data "u1".data) "docs".data =
        .ok "/srv/uploads/u1/docs".data ∧
      (∀ e ∈ (⟨[], []⟩ : World).dirs, e.1 ≠ "/srv/uploads/u1/docs".data ∧
        startsWithL e.1 ("/srv/uploads/u1/docs".data ++ ['/']) = false) ∧
      (∀ e ∈ (⟨[], []⟩ : World).files,
        startsWithL e.1 ("/srv/uploads/u1/docs".data ++ ['/']) = false)) ∧
    ((get_file_tree "/srv".data "u1".data "docs".data ⟨[], []⟩).2 =
        .ok ⟨[], "docs".data⟩ ∧
      (∀ q ∈ slashPrefixes "/srv/uploads/u1/docs".data,
        ∃ mt, (q, mt) ∈ (get_file_tree "/srv".data "u1".data "docs".data ⟨[], []⟩).1.dirs)) :=
  ⟨⟨by decide, by decide, by decide⟩,
    C10_tree_creates_missing_dir _ _ _ _ _ (by decide) (by decide) (by decide)⟩

/-- Witness for the amended C3 on two concrete sanitised ids. -/
theorem C3_user_directory_separation_witness :
    (("/srv".data : LC).head? = some '/' ∧
      ("alice".data : LC) ≠ [] ∧ ("bob".data : LC) ≠ [] ∧
      '/' ∉ ("alice".data : LC) ∧ '/' ∉ ("bob".data : LC) ∧
      ("alice".data : LC) ≠ ['.'] ∧ ("alice".data : LC) ≠ ['.', '.'] ∧
      ("bob".data : LC) ≠ ['.'] ∧ ("bob".data : LC) ≠ ['.', '.'] ∧
      ("alice".data : LC) ≠ "bob".data) ∧
    (abspath "/srv".data (get_user_directory "/srv".data "alice".data) ≠
        abspath "/srv".data (get_user_directory "/srv".data "bob".data) ∧
      ¬ ProperDesc (abspath "/srv".data (get_user_directory "/srv".data "alice".data))
        (abspath "/srv".data (get_user_directory "/srv".data "bob".data)) ∧
      ¬ ProperDesc (abspath "/srv".data (get_user_directory "/srv".data "bob".data))
        (abspath "/srv".data (get_user_directory "/srv".data "alice".data)) ∧
      ProperDesc (abspath "/srv".data (get_user_directory "/srv".data "alice".data))
        (abspath "/srv".data (joinOne "/srv".data "uploads".data))) :=
  ⟨⟨by decide, by decide, by decide, by decide, by decide, by decide, by decide,
      by decide, by decide, by decide⟩,
    C3_user_directory_separation "/srv".data "alice".data "bob".data
      (by decide) (by decide) (by decide) (by decide) (by decide) (by decide)
      (by decide) (by decide) (by decide) (by decide)⟩

end FileExplorer
